import Mathlib

/-!
Verification of the Ubuntu_Voice_To_Text repository core: the tabular
logging subsystem (`src/services/enhanced_logging_service.py`) and the
settings store (`src/config.py`).

The Python source is shallowly embedded: pure computations become Lean
functions on `List Char` / association lists, file-system effects become
explicit state passing, and fallible operations return `Except`.
Strings are modelled as `List Char` restricted to the ASCII behaviour the
source exercises (the Python stdlib text functions involved — `textwrap`,
`str.lower`, `str.strip` — are modelled for ASCII input; `textwrap`'s
hardcoded whitespace set is itself ASCII-only).
-/

deriving instance DecidableEq for Except

namespace UVTT

/-- Embeds the `ProcessType(str, Enum)` of
`enhanced_logging_service.py`: the closed category taxonomy. -/
inductive ProcessType where
  | ui
  | core
  | system
  | speech
  | input
deriving DecidableEq, Repr

/-- The `value` of each `ProcessType` member: its canonical wire string. -/
def ProcessType.value : ProcessType → String
  | .ui => "ui"
  | .core => "core"
  | .system => "system"
  | .speech => "speech"
  | .input => "input"

/-- Embeds the `LogStatus(str, Enum)` of `enhanced_logging_service.py`.
`info`'s wire value is `"information"`. -/
inductive LogStatus where
  | failure
  | success
  | warning
  | critical
  | info
  | debug
deriving DecidableEq, Repr

/-- The `value` of each `LogStatus` member. -/
def LogStatus.value : LogStatus → String
  | .failure => "failure"
  | .success => "success"
  | .warning => "warning"
  | .critical => "critical"
  | .info => "information"
  | .debug => "debug"

/-- Embeds the enum value lookup `ProcessType(s)`: returns the member whose
`value` is `s`, or `none` (Python raises `ValueError`). -/
def ProcessType.ofValue? (s : String) : Option ProcessType :=
  if s = "ui" then some .ui
  else if s = "core" then some .core
  else if s = "system" then some .system
  else if s = "speech" then some .speech
  else if s = "input" then some .input
  else none

/-- Embeds the enum value lookup `LogStatus(s)`. -/
def LogStatus.ofValue? (s : String) : Option LogStatus :=
  if s = "failure" then some .failure
  else if s = "success" then some .success
  else if s = "warning" then some .warning
  else if s = "critical" then some .critical
  else if s = "information" then some .info
  else if s = "debug" then some .debug
  else none

/-- Embeds Python `str.lower()` for the ASCII strings the enums use:
`Char.toLower` lower-cases exactly the ASCII upper-case letters. -/
def strLower (s : String) : String :=
  ⟨s.data.map Char.toLower⟩

/-- A `process_type` argument to `log_entry` as the callers pass it: either
an enum member already or a string (the two shapes the source handles). -/
abbrev ProcessTypeArg := ProcessType ⊕ String

/-- A `status` argument to `log_entry`: enum member or string. -/
abbrev LogStatusArg := LogStatus ⊕ String

/-- Embeds the `process_type` validation in `log_entry` (lines 190-194):
`isinstance` members pass through; a string is looked up after `.lower()`;
a failed lookup (`ValueError`) falls back to `ProcessType.SYSTEM`. -/
def coerceProcessType : ProcessTypeArg → ProcessType
  | .inl p => p
  | .inr s => (ProcessType.ofValue? (strLower s)).getD .system

/-- Embeds the `status` validation in `log_entry` (lines 196-200): fallback
is `LogStatus.INFO` (wire value `"information"`). -/
def coerceLogStatus : LogStatusArg → LogStatus
  | .inl st => st
  | .inr s => (LogStatus.ofValue? (strLower s)).getD .info

/-! ## The `textwrap.wrap` model

`log_entry` wraps the message with `textwrap.wrap(log_message, width=50)`,
i.e. `TextWrapper` with all defaults: `expand_tabs=True, tabsize=8,
replace_whitespace=True, break_long_words=True, drop_whitespace=True,
break_on_hyphens=True, max_lines=None, fix_sentence_endings=False`, empty
indents. The model below reproduces `_munge_whitespace`, the chunk split,
`_handle_long_word` and `_wrap_chunks` for that configuration, with one
simplification: the chunk split follows `wordsep_simple_re` (maximal
whitespace / non-whitespace runs) and does not reproduce the extra
subdivision of hyphenated words and em-dashes that `break_on_hyphens`
adds in `wordsep_re`. The general theorems below therefore hypothesise
hyphen-free input, on which the two splits agree; `_handle_long_word`'s
own hyphen search is modelled in full. -/

/-- The hardcoded `_whitespace = '\t\n\x0b\x0c\r '` of `textwrap`. -/
def isPyWs (c : Char) : Bool :=
  c = '\t' || c = '\n' || c = Char.ofNat 11 || c = Char.ofNat 12 ||
  c = '\r' || c = ' '

/-- Embeds `str.expandtabs(8)`: each tab becomes spaces up to the next
multiple of 8; the column counter resets after `'\n'` and `'\r'`. -/
def expandtabs8 (col : Nat) : List Char → List Char
  | [] => []
  | c :: rest =>
    if c = '\t' then
      let pad := 8 - col % 8
      List.replicate pad ' ' ++ expandtabs8 (col + pad) rest
    else if c = '\n' ∨ c = '\r' then c :: expandtabs8 0 rest
    else c :: expandtabs8 (col + 1) rest

/-- Embeds `TextWrapper._munge_whitespace`: expand tabs, then translate
every whitespace character to a plain space. -/
def _munge_whitespace (text : List Char) : List Char :=
  (expandtabs8 0 text).map (fun c => if isPyWs c then ' ' else c)

/-- Splits text into maximal runs of whitespace / non-whitespace
characters: the chunk split of `TextWrapper._split` (see the module note
about `break_on_hyphens`). -/
def splitChunks : List Char → List (List Char)
  | [] => []
  | c :: rest =>
    match splitChunks rest with
    | [] => [[c]]
    | [] :: groups => [c] :: [] :: groups
    | (d :: ds) :: groups =>
      if isPyWs c = isPyWs d then (c :: d :: ds) :: groups
      else [c] :: (d :: ds) :: groups

/-- A chunk that `chunk.strip() == ''` accepts: all-whitespace (so also
the empty chunk). -/
def isWsChunk (c : List Char) : Bool := c.all isPyWs

/-- Total character length of a chunk list (`sum(map(len, cur_line))`). -/
def chunkLen (cs : List (List Char)) : Nat := (cs.map List.length).sum

/-- The greedy inner loop of `_wrap_chunks`: consume chunks while
`cur_len + len(chunk) <= width`; returns (consumed line, rest). -/
def greedyTake (width : Nat) (curLen : Nat) : List (List Char) →
    List (List Char) × List (List Char)
  | [] => ([], [])
  | c :: rest =>
    if curLen + c.length ≤ width then
      let p := greedyTake width (curLen + c.length) rest
      (c :: p.1, p.2)
    else ([], c :: rest)

/-- `chunk.rfind('-', 0, n)` restricted to the already-taken slice: index
of the last `'-'`, if any (an occurrence further right wins). -/
def rfindDash : List Char → Option Nat
  | [] => none
  | c :: rest =>
    match rfindDash rest with
    | some h => some (h + 1)
    | none => if c = '-' then some 0 else none

/-- The split position `_handle_long_word` uses for an overlong chunk:
`space_left`, or just after the last hyphen inside the slice when one is
preceded by a non-hyphen (`break_on_hyphens=True`). -/
def hlwEnd (spaceLeft : Nat) (chunk : List Char) : Nat :=
  if spaceLeft < chunk.length then
    match rfindDash (chunk.take spaceLeft) with
    | some h =>
      if 0 < h ∧ (chunk.take h).any (fun c => c ≠ '-') then h + 1
      else spaceLeft
    | none => spaceLeft
  else spaceLeft

/-- Embeds `TextWrapper._handle_long_word` for `break_long_words=True`:
put `chunk[:end]` on the current line and leave `chunk[end:]` as the next
chunk. -/
def _handle_long_word (width curLen : Nat) (chunk : List Char) :
    List Char × List Char :=
  let spaceLeft := if width < 1 then 1 else width - curLen
  (chunk.take (hlwEnd spaceLeft chunk), chunk.drop (hlwEnd spaceLeft chunk))

/-- The single trailing-whitespace drop of `_wrap_chunks`
(`if cur_line and cur_line[-1].strip() == '': del cur_line[-1]`). -/
def dropTrailingWsChunk (cur : List (List Char)) : List (List Char) :=
  match cur.getLast? with
  | some l => if isWsChunk l then cur.dropLast else cur
  | none => cur

/-- Termination measure for the outer `while chunks:` loop: total
characters plus chunk count; every iteration strictly decreases it. -/
def wrapMeasure (cs : List (List Char)) : Nat := chunkLen cs + cs.length

/-- One line-building pass of `_wrap_chunks` after the leading-whitespace
drop: the greedy inner loop, then `_handle_long_word` when the next chunk
cannot fit on any line. Returns (`cur_line`, remaining chunks). -/
def wrapStep (width : Nat) (chunks1 : List (List Char)) :
    List (List Char) × List (List Char) :=
  let p := greedyTake width 0 chunks1
  match p.2 with
  | [] => (p.1, [])
  | r :: rs =>
    if width < r.length then
      let hl := _handle_long_word width (chunkLen p.1) r
      (p.1 ++ [hl.1], hl.2 :: rs)
    else (p.1, r :: rs)

/-- Embeds the outer loop of `TextWrapper._wrap_chunks` for the default
configuration (`max_lines=None`, empty indents, `drop_whitespace=True`),
structurally recursive on a fuel argument so the definition evaluates in
the kernel; `wrapMeasure chunks + 1` fuel provably suffices.
`hasLines` tracks `lines` being nonempty (gates the leading-whitespace
drop). -/
def wrapChunksFuel (width : Nat) : Nat → Bool → List (List Char) →
    List (List Char)
  | 0, _, _ => []
  | _ + 1, _, [] => []
  | fuel + 1, hasLines, c :: rest =>
    let chunks1 := if hasLines && isWsChunk c then rest else c :: rest
    match chunks1 with
    | [] => []
    | c1 :: r1 =>
      let q := wrapStep width (c1 :: r1)
      let cur2 := dropTrailingWsChunk q.1
      if cur2.isEmpty then wrapChunksFuel width fuel hasLines q.2
      else cur2.flatten :: wrapChunksFuel width fuel true q.2

/-- Embeds `textwrap.wrap(text, width)` with default options (under the
chunk-split caveat in the module note): munge, split, wrap. -/
def textwrap_wrap (width : Nat) (text : List Char) : List (List Char) :=
  let chunks := splitChunks (_munge_whitespace text)
  wrapChunksFuel width (wrapMeasure chunks + 1) false chunks

/-- The wrapped message lines of `log_entry` (lines 205-208): `textwrap`
output, replaced by a single empty line when it is empty. -/
def messageLines (msg : List Char) : List (List Char) :=
  let ls := textwrap_wrap 50 msg
  if ls.isEmpty then [[]] else ls

/-- The ordered column layout `self.col_widths` of `EnhancedLogger`
(lines 59-67): name and fixed content width, in file-format order. -/
def col_widths : List (String × Nat) :=
  [("timestamp", 25), ("task", 15), ("function", 30), ("file", 25),
   ("message", 50), ("process_type", 15), ("status", 15)]

/-- `self.padding`: one space between each border and the cell content. -/
def padding : Nat := 1

/-- Embeds `_create_separator_line` (lines 108-114): a `+`, then per column
`width + 2*padding` dashes and a `+`. -/
def _create_separator_line : List Char :=
  '+' :: (col_widths.map fun nw =>
    List.replicate (nw.2 + padding * 2) '-' ++ ['+']).flatten

/-- One rendered cell of a table row plus its closing `|`: a padding
space, the content, then `width - len(content) + padding` spaces
(computed over `Int` as Python does; a negative count renders no
spaces, like `" " * n` for negative `n`). -/
def renderCell (w : Nat) (content : List Char) : List Char :=
  List.replicate padding ' ' ++ content ++
    List.replicate (((w : Int) - content.length + padding).toNat) ' ' ++ ['|']

/-- A full table row from a column-name-to-content map: the `log_line`
loop of `log_entry` (lines 222-226). -/
def renderRow (cells : String → List Char) : List Char :=
  '|' :: (col_widths.map fun nw => renderCell nw.2 (cells nw.1)).flatten

/-- A continuation row for one additional wrapped message line
(lines 236-246): the message column carries the content, every other
column is `width + 2*padding` spaces. -/
def contRow (line : List Char) : List Char :=
  '|' :: (col_widths.map fun nw =>
    if nw.1 = "message" then renderCell nw.2 line
    else List.replicate (nw.2 + padding * 2) ' ' ++ ['|']).flatten

/-- The inputs of one `log_entry` call, with the ambient data the method
reads itself (wall clock, caller frame, instance fields) made explicit. -/
structure LogEntryArgs where
  function_name : List Char
  log_message : List Char
  process_type : ProcessTypeArg
  status : LogStatusArg
  task_name : Option (List Char)
  timestamp : List Char
  source_file : List Char
  project_name : List Char

/-- The per-column `values` dict of `log_entry` (lines 211-219): every
field is cut to its column width with `[:w]`; the message column holds
the first wrapped line untruncated. -/
def log_values (a : LogEntryArgs) : String → List Char :=
  let task := a.task_name.getD a.project_name
  let pt := coerceProcessType a.process_type
  let st := coerceLogStatus a.status
  let ml := messageLines a.log_message
  fun name =>
    if name = "timestamp" then a.timestamp.take 25
    else if name = "task" then task.take 15
    else if name = "function" then a.function_name.take 30
    else if name = "file" then a.source_file.take 25
    else if name = "message" then ml.headD []
    else if name = "process_type" then pt.value.toList.take 15
    else if name = "status" then st.value.toList.take 15
    else []

/-- The table rows one `log_entry` call writes: the full first row, then
one continuation row per wrapped message line after the first
(lines 222-246). -/
def log_table_rows (a : LogEntryArgs) : List (List Char) :=
  renderRow (log_values a) :: ((messageLines a.log_message).drop 1).map contRow

/-- Every line one `log_entry` call appends to the log file: the table
rows, then one separator line when the coerced status is `critical`
(lines 229-250). -/
def log_entry_lines (a : LogEntryArgs) : List (List Char) :=
  log_table_rows a ++
    (if coerceLogStatus a.status = LogStatus.critical
     then [_create_separator_line] else [])

/-- The observable outcome of `log_entry` towards its caller: the source
opens the log file for append inside the method body with no `try` around
it, so when the file system fails (`fsOk = false`, modelling `open` or
`write` raising `OSError`) the exception propagates as `.error`;
otherwise the call returns normally having appended `log_entry_lines`. -/
def log_entry_run (fsOk : Bool) (a : LogEntryArgs) :
    Except Unit (List (List Char)) :=
  if fsOk then .ok (log_entry_lines a) else .error ()

/-- Reads the fixed-width cells back out of a rendered row: for each
column, the `width + 2*padding` characters between the `|` borders.
Applied to `row.drop 1` (past the leading `|`). -/
def sliceCols : List (String × Nat) → List Char → List (List Char)
  | [], _ => []
  | nw :: rest, r =>
    r.take (nw.2 + 2 * padding) :: sliceCols rest (r.drop (nw.2 + 2 * padding + 1))

/-- The footer block `_add_closing_line` appends (lines 260-265):
separator, `"| Log encerrado em: <now>"` padded with 150 spaces and a
closing `|`, separator. -/
def footerBlock (now : List Char) : List (List Char) :=
  [_create_separator_line,
   "| Log encerrado em: ".toList ++ now ++ List.replicate 150 ' ' ++ ['|'],
   _create_separator_line]

/-- Embeds `_add_closing_line` (lines 256-267): when the log file exists
it appends the footer block; any write failure is swallowed by the bare
`except`, leaving the file as it was; there is no guard against being
invoked a second time. -/
def _add_closing_line (fsOk fileExists : Bool) (now : List Char)
    (file : List (List Char)) : List (List Char) :=
  if fileExists then (if fsOk then file ++ footerBlock now else file)
  else file

/-- Counts the footer lines in a log file: lines that start with the
`"| Log encerrado em: "` text the finalizer writes. -/
def countFooterLines (file : List (List Char)) : Nat :=
  file.countP (fun l => "| Log encerrado em: ".toList.isPrefixOf l)

/-! ## The settings store (`src/config.py`)

Settings documents are nested string-keyed mappings with scalar leaves.
Python dicts are modelled as insertion-ordered association lists;
`d[k] = v` updates the first binding in place or appends a new one.
The float literals in `DEFAULT_SETTINGS` all have one decimal digit and
are never computed with, so scalars carry them as tenths. -/

/-- A scalar settings value: bool, int, string, or a one-decimal-digit
float stored as tenths (`SVal.f10 6` is `0.6`). -/
inductive SVal where
  | b : Bool → SVal
  | i : Int → SVal
  | s : String → SVal
  | f10 : Int → SVal
deriving DecidableEq, Repr

/-- A settings value: scalar or nested mapping (ordered entry list). -/
inductive JValue where
  | prim : SVal → JValue
  | obj : List (String × JValue) → JValue

/-- A settings document object: ordered key/value entries. -/
abbrev Obj := List (String × JValue)

mutual

/-- Boolean equality on settings values (structural). -/
def jvalBeq : JValue → JValue → Bool
  | .prim a, .prim b => a == b
  | .obj d, .obj e => objBeq d e
  | _, _ => false

/-- Boolean equality on document objects (structural). -/
def objBeq : Obj → Obj → Bool
  | [], [] => true
  | (k, v) :: r, (k', v') :: r' => k == k' && jvalBeq v v' && objBeq r r'
  | _, _ => false

end

mutual

theorem jvalBeq_iff : ∀ a b, jvalBeq a b = true ↔ a = b
  | .prim a, .prim b => by simp [jvalBeq]
  | .obj d, .obj e => by rw [jvalBeq, objBeq_iff d e]; simp
  | .prim _, .obj _ => by simp [jvalBeq]
  | .obj _, .prim _ => by simp [jvalBeq]

theorem objBeq_iff : ∀ d e, objBeq d e = true ↔ d = e
  | [], [] => by simp [objBeq]
  | (k, v) :: r, (k', v') :: r' => by
    rw [objBeq, Bool.and_eq_true, Bool.and_eq_true, jvalBeq_iff v v',
      objBeq_iff r r']
    constructor
    · rintro ⟨⟨h1, h2⟩, h3⟩
      simp_all
    · intro h
      injection h with h1 h2
      injection h1
      simp_all
  | [], _ :: _ => by simp [objBeq]
  | _ :: _, [] => by simp [objBeq]

end

instance : DecidableEq JValue := fun a b => decidable_of_iff _ (jvalBeq_iff a b)

mutual

/-- Structural size of a settings value (used as recursion fuel for the
heap embedding further below). -/
def jvalSize : JValue → Nat
  | .prim _ => 1
  | .obj d => 1 + objSize d

/-- Structural size of a document object. -/
def objSize : Obj → Nat
  | [] => 0
  | (_, v) :: rest => jvalSize v + objSize rest

end

/-- Python `d[k]` / `k in d` on the model: first binding wins. -/
def dictGet? : Obj → String → Option JValue
  | [], _ => none
  | (k', v) :: rest, k => if k' = k then some v else dictGet? rest k

/-- Python `d[k] = v` on the model: replace the first binding in place,
or append a new binding at the end (dict insertion order). -/
def dictSet : Obj → String → JValue → Obj
  | [], k, v => [(k, v)]
  | (k', w) :: rest, k, v =>
    if k' = k then (k', v) :: rest else (k', w) :: dictSet rest k v

mutual

/-- Embeds `_update_nested_dict(base_dict, new_dict)` (config.py lines
200-212) as a function on document values: for each entry of `new` in
order, update the base (the in-place mutation aspect is modelled
separately in the heap embedding below). -/
def _update_nested_dict : Obj → Obj → Obj
  | base, [] => base
  | base, (k, v) :: rest => _update_nested_dict (updateEntry base k v) rest

/-- One loop step of `_update_nested_dict`: when the key maps to a dict
in the base and the new value is a dict, recurse; otherwise assign. -/
def updateEntry (base : Obj) (k : String) : JValue → Obj
  | .obj no =>
    match dictGet? base k with
    | some (.obj bo) => dictSet base k (.obj (_update_nested_dict bo no))
    | _ => dictSet base k (.obj no)
  | .prim sv => dictSet base k (.prim sv)

end

/-- The compiled-in `DEFAULT_SETTINGS` of config.py (lines 34-83). -/
def DEFAULT_SETTINGS : Obj :=
  [("general", .obj
     [("startup_with_system", .prim (.b false)),
      ("minimize_to_tray", .prim (.b true)),
      ("notification_sounds", .prim (.b true)),
      ("save_dictation_history", .prim (.b true)),
      ("max_history_items", .prim (.i 100)),
      ("theme", .prim (.s "system")),
      ("log_level", .prim (.s "INFO"))]),
   ("hotkeys", .obj
     [("toggle_dictation", .prim (.s "super+h")),
      ("pause_dictation", .prim (.s "ctrl+space")),
      ("cancel_dictation", .prim (.s "escape"))]),
   ("speech_recognition", .obj
     [("engine", .prim (.s "vosk")),
      ("language", .prim (.s "pt-BR")),
      ("auto_punctuation", .prim (.b true)),
      ("sensitivity", .prim (.f10 6)),
      ("timeout", .prim (.i 5)),
      ("auto_stop_after_silence", .prim (.f10 20)),
      ("capitalize_sentences", .prim (.b true))]),
   ("ui", .obj
     [("floating_panel", .prim (.b true)),
      ("panel_width", .prim (.i 500)),
      ("panel_height", .prim (.i 200)),
      ("opacity", .prim (.f10 9)),
      ("show_confidence", .prim (.b false)),
      ("font_size", .prim (.i 12))]),
   ("advanced", .obj
     [("audio_device", .prim (.s "default")),
      ("sample_rate", .prim (.i 16000)),
      ("debug_mode", .prim (.b false)),
      ("keep_logs_days", .prim (.i 30)),
      ("max_log_size_mb", .prim (.i 5)),
      ("keyboard_backend", .prim (.s "auto"))])]

/-- The persisted settings file: absent, unreadable/corrupt (json raise),
or a parsed document. -/
abbrev Disk := Option (Except Unit Obj)

/-- Embeds `load_settings` (lines 94-121) at document-value level: merge
the user document over a copy of the defaults; a missing file persists
and returns the defaults; any exception also returns the defaults. -/
def load_settings : Disk → Obj
  | some (.ok user) => _update_nested_dict DEFAULT_SETTINGS user
  | some (.error _) => DEFAULT_SETTINGS
  | none => DEFAULT_SETTINGS

/-- Embeds a successful `save_settings(settings)` (lines 124-140): the
file now holds the serialized document. (A failed write would leave the
disk unchanged and return `False`; no claim exercises that branch.) -/
def save_settings (doc : Obj) : Disk := some (.ok doc)

/-- Python `path.split('.')` over the character list: split at every dot,
keeping empty segments; the empty path gives one empty segment. -/
def splitDot : List Char → List (List Char)
  | [] => [[]]
  | c :: rest =>
    match splitDot rest with
    | [] => [[]]
    | g :: gs => if c = '.' then [] :: g :: gs else (c :: g) :: gs

/-- The dotted path of `get_setting`/`set_setting` as key strings. -/
def splitDotStr (path : String) : List String :=
  (splitDot path.data).map (fun l => String.mk l)

/-- Python `needle in hay` on strings: substring containment (the empty
needle is contained in everything). -/
def isSubstrB (n : List Char) : List Char → Bool
  | [] => n.isEmpty
  | c :: rest => n.isPrefixOf (c :: rest) || isSubstrB n rest

/-- The navigation loop of `get_setting` (lines 159-167). On a mapping,
a present key descends and an absent key returns the caller fallback.
On a string value, Python first evaluates `part in current` (substring
test): when it succeeds, `current[part]` raises `TypeError` (string
indices must be integers); when it fails, the fallback is returned. On
any other scalar, `part in current` itself raises `TypeError`. -/
def getPath : JValue → List String → JValue → Except Unit JValue
  | cur, [], _ => .ok cur
  | .obj d, p :: ps, dflt =>
    match dictGet? d p with
    | some v => getPath v ps dflt
    | none => .ok dflt
  | .prim (SVal.s str), p :: _, dflt =>
    if isSubstrB p.data str.data then .error () else .ok dflt
  | .prim _, _ :: _, _ => .error ()

/-- Embeds `get_setting(path, default)` (lines 143-167): load, split the
path at dots, navigate. `.error` models an uncaught `TypeError`. -/
def get_setting (disk : Disk) (path : String) (dflt : JValue) :
    Except Unit JValue :=
  getPath (.obj (load_settings disk)) (splitDotStr path) dflt

/-- The navigation/creation loop of `set_setting` (lines 186-194): walk
all segments but the last, creating an empty mapping for a missing key;
assign at the last segment. Reaching a scalar at any point raises
`TypeError` (membership test on a non-iterable, string indexing by
string, or item assignment on a scalar — Python raises on each road). -/
def setPathObj (cur : Obj) : List String → JValue → Except Unit Obj
  | [], _ => .ok cur
  | [p], v => .ok (dictSet cur p v)
  | p :: ps₁ :: ps, v =>
    match dictGet? cur p with
    | some (.obj sub) =>
      match setPathObj sub (ps₁ :: ps) v with
      | .ok sub' => .ok (dictSet cur p (.obj sub'))
      | .error e => .error e
    | some (.prim _) => .error ()
    | none =>
      match setPathObj [] (ps₁ :: ps) v with
      | .ok sub' => .ok (dictSet cur p (.obj sub'))
      | .error e => .error e

/-- Embeds `set_setting(path, value)` (lines 170-197): load, navigate and
assign, persist the updated document. -/
def set_setting (disk : Disk) (path : String) (v : JValue) :
    Except Unit Disk :=
  match setPathObj (load_settings disk) (splitDotStr path) v with
  | .ok s₂ => .ok (save_settings s₂)
  | .error e => .error e

mutual

/-- Written from the claim wording for C6: the recursive merge in which
a defaults key absent from the user document is kept, a key present in
both takes the user value — except that two nested mappings are merged
recursively rather than replaced — and user-only keys are appended. -/
def specDeepMerge : JValue → JValue → JValue
  | .obj b, .obj n =>
    .obj (specMergeEntries b n ++ n.filter (fun kv => (dictGet? b kv.1).isNone))
  | _, n => n

/-- The defaults-side entries of the claim-side merge: each defaults key
keeps its value when the user document lacks it, and takes the (merged)
user value when present. -/
def specMergeEntries : Obj → Obj → Obj
  | [], _ => []
  | (k, dv) :: rest, n =>
    (k, match dictGet? n k with
        | none => dv
        | some uv => specDeepMerge dv uv) :: specMergeEntries rest n

end

/-- No string occurs twice in a key list (a parsed JSON object keeps one
binding per key — well-formed documents). -/
def keysNodupB : List String → Bool
  | [] => true
  | k :: rest => !(rest.contains k) && keysNodupB rest

mutual

/-- Recursive well-formedness of a document value: every mapping in it
has pairwise-distinct keys. -/
def docWF : JValue → Bool
  | .prim _ => true
  | .obj d => keysNodupB (d.map Prod.fst) && docWFEntries d

/-- Recursive well-formedness of every value in an entry list. -/
def docWFEntries : Obj → Bool
  | [] => true
  | (_, v) :: rest => docWF v && docWFEntries rest

end

/-- `get_setting` navigation stays on mappings while segments remain: a
missing key stops navigation with the fallback, and no scalar is entered
mid-path. -/
def pathSafe : JValue → List String → Bool
  | _, [] => true
  | .obj d, p :: ps =>
    match dictGet? d p with
    | some v => pathSafe v ps
    | none => true
  | .prim _, _ :: _ => false

/-- Navigation meets a missing key at some step (stated on mapping-only
navigation; meaningless once `pathSafe` fails). -/
def pathMissing : JValue → List String → Bool
  | _, [] => false
  | .obj d, p :: ps =>
    match dictGet? d p with
    | some v => pathMissing v ps
    | none => true
  | .prim _, _ :: _ => false

/-! ## Heap embedding of `load_settings` (for the aliasing frame effect)

`merged_settings = DEFAULT_SETTINGS.copy()` copies only the top-level
dict; the nested section dicts stay shared, and `_update_nested_dict`
mutates them in place. The value-level model above cannot express this,
so the merge is re-embedded over an explicit object store: addresses
index a list of dict objects, values in a dict are scalars or
references. -/

/-- A heap value: scalar, or reference to a dict object. -/
inductive HVal where
  | prim : SVal → HVal
  | ref : Nat → HVal
deriving DecidableEq, Repr

/-- A dict object on the heap: ordered key/value entries. -/
abbrev HObj := List (String × HVal)

/-- The object store: address `a` is `objs[a]`; allocation appends. -/
structure Heap where
  objs : List HObj
deriving DecidableEq, Repr

/-- The object at an address (absent addresses read as empty). -/
def Heap.getObj (h : Heap) (a : Nat) : HObj := h.objs.getD a []

/-- Replace the object at an address. -/
def Heap.setObj (h : Heap) (a : Nat) (o : HObj) : Heap := ⟨h.objs.set a o⟩

/-- Allocate a fresh object, returning its address. -/
def Heap.alloc (h : Heap) (o : HObj) : Heap × Nat :=
  (⟨h.objs ++ [o]⟩, h.objs.length)

/-- Heap-level `d[k]` lookup: first binding wins. -/
def dictGetH? : HObj → String → Option HVal
  | [], _ => none
  | (k', v) :: rest, k => if k' = k then some v else dictGetH? rest k

/-- Heap-level `d[k] = v`: replace the first binding or append. -/
def dictSetH : HObj → String → HVal → HObj
  | [], k, v => [(k, v)]
  | (k', w) :: rest, k, v =>
    if k' = k then (k', v) :: rest else (k', w) :: dictSetH rest k v

mutual

/-- Materializes a parsed document into the store as `json.load` does:
every nested mapping becomes a fresh object, children allocated before
their parent. -/
def allocVal : Heap → JValue → Heap × HVal
  | h, .prim sv => (h, .prim sv)
  | h, .obj d =>
    let p := allocEntries h d
    let r := p.1.alloc p.2
    (r.1, .ref r.2)

/-- Materializes each entry value in order, threading the store. -/
def allocEntries : Heap → Obj → Heap × HObj
  | h, [] => (h, [])
  | h, (k, v) :: rest =>
    let q := allocVal h v
    let r := allocEntries q.1 rest
    (r.1, (k, q.2) :: r.2)

end

/-- The entry loop of the heap-level `_update_nested_dict` over a
snapshot of the `new` object entries, parametrized by the recursive
descent: recurse when both sides are dict references, otherwise assign
into the base object. -/
def updHEntriesWith (step : Heap → Nat → Nat → Heap) :
    Heap → Nat → List (String × HVal) → Heap
  | h, _, [] => h
  | h, base, (k, v) :: rest =>
    let h' :=
      match dictGetH? (h.getObj base) k, v with
      | some (.ref ba), .ref nb => step h ba nb
      | _, _ => h.setObj base (dictSetH (h.getObj base) k v)
    updHEntriesWith step h' base rest

/-- Heap-level `_update_nested_dict(base, new)` on object addresses,
following the source loop; fuel-structural on the recursion depth
(`jvalSize` of the user document provably suffices for the heaps built
here). -/
def updateNestedH : Nat → Heap → Nat → Nat → Heap
  | 0, h, _, _ => h
  | f + 1, h, base, na => updHEntriesWith (updateNestedH f) h base (h.getObj na)

/-- Reads each entry value back off the heap via the given reader. -/
def derefEntriesWith (rd : HVal → JValue) : List (String × HVal) → Obj
  | [] => []
  | (k, v) :: rest => (k, rd v) :: derefEntriesWith rd rest

/-- Reads a document value back off the heap (fuel-structural; the heaps
built here are acyclic so enough fuel reads everything). -/
def derefGo : Nat → Heap → HVal → JValue
  | 0, _, _ => .prim (SVal.s "")
  | _ + 1, _, .prim sv => .prim sv
  | f + 1, h, .ref a => .obj (derefEntriesWith (derefGo f h) (h.getObj a))

/-- The heap-level run of `load_settings` on a present, parsed user
document: materialize `DEFAULT_SETTINGS` (the module-level object built
at import), materialize the freshly parsed user document, shallow-copy
the defaults top dict (`DEFAULT_SETTINGS.copy()`), and merge in place.
Returns (final heap, merged address, defaults address). -/
def load_settingsH (user : Obj) : Heap × Nat × Nat :=
  let p₀ := allocVal ⟨[]⟩ (.obj DEFAULT_SETTINGS)
  let dAddr := match p₀.2 with | .ref a => a | _ => 0
  let p₁ := allocVal p₀.1 (.obj user)
  let uAddr := match p₁.2 with | .ref a => a | _ => 0
  let p₂ := p₁.1.alloc (p₁.1.getObj dAddr)
  let h := updateNestedH (jvalSize (.obj user) + 1) p₂.1 p₂.2 uAddr
  (h, p₂.2, dAddr)

/-- The value of the module-level `DEFAULT_SETTINGS` object as observed
after `load_settings` ran on the given user document — exactly the value
a subsequent `load_settings()` with no settings file returns
(`DEFAULT_SETTINGS.copy()`) and a subsequent `reset_settings()`
persists. -/
def defaults_after_load (user : Obj) : JValue :=
  let r := load_settingsH user
  derefGo (jvalSize (.obj user) + jvalSize (.obj DEFAULT_SETTINGS))
    r.1 (.ref r.2.2)

/-! ## Claim-side readers for the wrap and table formats -/

/-- The maximal non-whitespace runs of a line (its words). -/
def nonWsRuns (l : List Char) : List (List Char) :=
  (splitChunks l).filter (fun c => !isWsChunk c)

/-- The words of a message as the wrapper sees them: the non-whitespace
runs of the munged text. -/
def wordsOf (msg : List Char) : List (List Char) :=
  nonWsRuns (_munge_whitespace msg)

/-- The expected in-file shape of one cell, read back between the `|`
borders: a padding space, the content, space fill to the fixed width. -/
def padCell (w : Nat) (content : List Char) : List Char :=
  ' ' :: content ++ List.replicate (w + 1 - content.length) ' '


/-! # Claim theorems and supporting lemmas -/

/-- Claim C1 (decided against the spec, exposing the missing handler):
`log_entry` appends through `with open(self.log_file, 'a')` with no
`try`/`except` in the method, so on an intact file system the call
returns normally with the record's lines appended, but a file-system
failure while opening or appending propagates the `OSError` to the
caller instead of returning normally. -/
theorem c1_log_write_failure_propagates :
    ∀ a : LogEntryArgs,
      log_entry_run true a = .ok (log_entry_lines a) ∧
      log_entry_run false a = .error () := by
  intro a
  exact ⟨rfl, rfl⟩

/-- Claim C3: `process_type` and `status` are always coerced into the
closed enumerations; enum members pass through, recognized strings map to
their member, and an unrecognized string falls back to `system` /
`information` without raising. -/
theorem c3_enum_coercion :
    ∀ (pt : ProcessTypeArg) (st : LogStatusArg) (s t : String),
      ((coerceProcessType pt).value ∈
          ["ui", "core", "system", "speech", "input"] ∧
        (coerceLogStatus st).value ∈
          ["failure", "success", "warning", "critical", "information",
            "debug"]) ∧
      (ProcessType.ofValue? (strLower s) = none →
        coerceProcessType (Sum.inr s) = ProcessType.system) ∧
      (LogStatus.ofValue? (strLower t) = none →
        coerceLogStatus (Sum.inr t) = LogStatus.info) := by
  intro pt st s t
  refine ⟨⟨?_, ?_⟩, ?_, ?_⟩
  · cases coerceProcessType pt <;> simp [ProcessType.value]
  · cases coerceLogStatus st <;> simp [LogStatus.value]
  · intro h
    simp [coerceProcessType, h]
  · intro h
    simp [coerceLogStatus, h]

/-- Witness for C3 at a concrete unrecognized pair of strings. -/
theorem c3_enum_coercion_witness :
    coerceProcessType (Sum.inr "Widget") = ProcessType.system ∧
    coerceLogStatus (Sum.inr "fatal") = LogStatus.info :=
  ⟨(c3_enum_coercion (Sum.inr "Widget") (Sum.inr "fatal") "Widget"
      "fatal").2.1 (by decide),
   (c3_enum_coercion (Sum.inr "Widget") (Sum.inr "fatal") "Widget"
      "fatal").2.2 (by decide)⟩

/-- Claim C8: exactly when the coerced status is `critical`, the lines a
`log_entry` call writes are its table rows followed by one extra
full-width separator line; the separator never occurs among the rows
themselves, so critical records get exactly one extra separator and
non-critical records get none. -/
theorem c8_critical_separator :
    ∀ a : LogEntryArgs,
      _create_separator_line ∉ log_table_rows a ∧
      (coerceLogStatus a.status = LogStatus.critical →
        log_entry_lines a = log_table_rows a ++ [_create_separator_line]) ∧
      (coerceLogStatus a.status ≠ LogStatus.critical →
        log_entry_lines a = log_table_rows a) := by
  intro a
  refine ⟨?_, ?_, ?_⟩
  · intro hmem
    have hhead : _create_separator_line.head? = some '|' := by
      rcases List.mem_cons.mp hmem with h | h
      · rw [h]
        rfl
      · rcases List.mem_map.mp h with ⟨l, _, hl⟩
        rw [← hl]
        rfl
    have : ('+' : Char) = '|' := by
      have h2 : _create_separator_line.head? = some '+' := rfl
      rw [hhead] at h2
      exact (Option.some.inj h2).symm
    exact absurd this (by decide)
  · intro hc
    simp [log_entry_lines, hc]
  · intro hc
    simp [log_entry_lines, hc]

/-- Witness for C8 at a concrete critical and a concrete warning call. -/
theorem c8_critical_separator_witness :
    (log_entry_lines
        ⟨"f".toList, "m".toList, Sum.inl .core, Sum.inl .critical, none,
          "t".toList, "s.py".toList, "p".toList⟩ =
      log_table_rows
        ⟨"f".toList, "m".toList, Sum.inl .core, Sum.inl .critical, none,
          "t".toList, "s.py".toList, "p".toList⟩ ++
        [_create_separator_line]) ∧
    log_entry_lines
        ⟨"f".toList, "m".toList, Sum.inl .core, Sum.inl .warning, none,
          "t".toList, "s.py".toList, "p".toList⟩ =
      log_table_rows
        ⟨"f".toList, "m".toList, Sum.inl .core, Sum.inl .warning, none,
          "t".toList, "s.py".toList, "p".toList⟩ :=
  ⟨(c8_critical_separator _).2.1 rfl,
   (c8_critical_separator _).2.2 (by decide)⟩

/-- Counterexample to C9 as frozen: invoking the finalizer twice appends
two footer blocks (there is no idempotence guard in
`_add_closing_line`), so "exactly one footer block even if invoked
twice" fails. -/
theorem c9_counterexample :
    countFooterLines
        (_add_closing_line true true "2024-01-01 10:00:00".toList
          (_add_closing_line true true "2024-01-01 10:00:00".toList [])) =
      2 := by decide

/-- Claim C9 as amended: each successful invocation of the finalizer
appends exactly one footer block; a failing write is swallowed leaving
the file unchanged, as is a missing log file. (The at-most-once behaviour
in practice rests solely on the single `atexit` registration.) -/
theorem c9_finalizer_appends_one_block_per_invocation :
    ∀ (file : List (List Char)) (now : List Char),
      countFooterLines (_add_closing_line true true now file) =
        countFooterLines file + 1 ∧
      _add_closing_line false true now file = file ∧
      _add_closing_line true false now file = file := by
  intro file now
  refine ⟨?_, rfl, rfl⟩
  have hsep : ("| Log encerrado em: ".toList.isPrefixOf
      _create_separator_line) = false := by decide
  have hline : ("| Log encerrado em: ".toList.isPrefixOf
      ("| Log encerrado em: ".toList ++ now ++
        List.replicate 150 ' ' ++ ['|'])) = true := by
    rw [List.isPrefixOf_iff_prefix]
    exact ⟨now ++ List.replicate 150 ' ' ++ ['|'], by simp⟩
  have h1 : _add_closing_line true true now file = file ++ footerBlock now :=
    rfl
  rw [h1]
  have h2 : countFooterLines (file ++ footerBlock now) =
      countFooterLines file + countFooterLines (footerBlock now) :=
    List.countP_append _ _ _
  rw [h2]
  have h3 : countFooterLines (footerBlock now) = 1 := by
    simp only [countFooterLines, footerBlock, List.countP_cons,
      List.countP_nil, hsep, hline]
    simp
  rw [h3]

/-! ## Lemmas about the wrap model -/

theorem chunkLen_cons (c : List Char) (cs : List (List Char)) :
    chunkLen (c :: cs) = c.length + chunkLen cs := by
  simp [chunkLen]

theorem chunkLen_append (a b : List (List Char)) :
    chunkLen (a ++ b) = chunkLen a + chunkLen b := by
  simp [chunkLen]

theorem flatten_length_eq_chunkLen (cs : List (List Char)) :
    cs.flatten.length = chunkLen cs := by
  simp [chunkLen]

theorem wrapMeasure_cons (c : List Char) (cs : List (List Char)) :
    wrapMeasure (c :: cs) = c.length + 1 + wrapMeasure cs := by
  simp [wrapMeasure, chunkLen_cons]
  omega

theorem wrapMeasure_append (a b : List (List Char)) :
    wrapMeasure (a ++ b) = wrapMeasure a + wrapMeasure b := by
  simp [wrapMeasure, chunkLen_append]
  omega

theorem greedyTake_append (w : Nat) :
    ∀ (cl : Nat) (cs : List (List Char)),
      (greedyTake w cl cs).1 ++ (greedyTake w cl cs).2 = cs
  | _, [] => rfl
  | cl, c :: rest => by
    simp only [greedyTake]
    split
    · simpa using greedyTake_append w (cl + c.length) rest
    · rfl

theorem greedyTake_len (w : Nat) :
    ∀ (cl : Nat) (cs : List (List Char)),
      (greedyTake w cl cs).1 = [] ∨
        cl + chunkLen (greedyTake w cl cs).1 ≤ w
  | _, [] => Or.inl rfl
  | cl, c :: rest => by
    simp only [greedyTake]
    split
    · rename_i hfit
      rcases greedyTake_len w (cl + c.length) rest with h | h
      · right
        rw [h]
        simpa [chunkLen_cons, chunkLen] using hfit
      · right
        simp only [chunkLen_cons]
        omega
    · exact Or.inl rfl

theorem greedyTake_nil_head (w cl : Nat) (c : List Char)
    (rest : List (List Char)) :
    (greedyTake w cl (c :: rest)).1 = [] → w < cl + c.length := by
  simp only [greedyTake]
  split
  · simp
  · rename_i h
    omega

theorem rfindDash_lt : ∀ (l : List Char) (k : Nat),
    rfindDash l = some k → k < l.length := by
  intro l
  induction l with
  | nil => intro k h; simp [rfindDash] at h
  | cons c rest ih =>
    intro k h
    simp only [rfindDash] at h
    rcases heq : rfindDash rest with _ | h'
    · rw [heq] at h
      by_cases hc : c = '-'
      · simp [hc] at h
        simp [← h]
      · simp [hc] at h
    · rw [heq] at h
      simp at h
      have := ih h' heq
      simp [← h]
      omega

theorem hlwEnd_le (sl : Nat) (chunk : List Char) :
    hlwEnd sl chunk ≤ sl := by
  simp only [hlwEnd]
  split
  · split
    · next h heq =>
      have hb := rfindDash_lt _ _ heq
      rw [List.length_take] at hb
      have hm : min sl chunk.length ≤ sl := Nat.min_le_left _ _
      split
      · omega
      · omega
    · omega
  · omega

theorem hlwEnd_pos (sl : Nat) (chunk : List Char) (hsl : 1 ≤ sl) :
    1 ≤ hlwEnd sl chunk := by
  simp only [hlwEnd]
  split
  · split
    · split
      · omega
      · omega
    · omega
  · omega

theorem hlw_decomp (w cl : Nat) (chunk : List Char) :
    (_handle_long_word w cl chunk).1 ++ (_handle_long_word w cl chunk).2 =
      chunk := by
  simp [_handle_long_word]

theorem hlw_piece_le (w cl : Nat) (chunk : List Char) :
    (_handle_long_word w cl chunk).1.length ≤
      (if w < 1 then 1 else w - cl) := by
  simp only [_handle_long_word, List.length_take]
  have := hlwEnd_le (if w < 1 then 1 else w - cl) chunk
  omega

theorem hlw_piece_pos (w cl : Nat) (chunk : List Char)
    (hlen : 0 < chunk.length) :
    1 ≤ (_handle_long_word w cl chunk).1.length ∨ (¬ w < 1 ∧ w ≤ cl) := by
  by_cases hsl : 1 ≤ (if w < 1 then 1 else w - cl)
  · left
    simp only [_handle_long_word, List.length_take]
    have := hlwEnd_pos (if w < 1 then 1 else w - cl) chunk hsl
    omega
  · right
    split at hsl
    · omega
    · rename_i hw
      constructor
      · exact hw
      · omega

theorem wrapStep_ne (w : Nat) (c1 : List Char) (r1 : List (List Char)) :
    (wrapStep w (c1 :: r1)).1 ≠ [] := by
  simp only [wrapStep]
  rcases hrem : (greedyTake w 0 (c1 :: r1)).2 with _ | ⟨r, rs⟩
  · intro hcur
    have hdec := greedyTake_append w 0 (c1 :: r1)
    rw [hcur, hrem] at hdec
    simp at hdec
  · by_cases hlong : w < r.length
    · simp [hlong]
    · simp only [if_neg hlong]
      intro hcur
      have hhead := greedyTake_nil_head w 0 c1 r1 hcur
      have hdec := greedyTake_append w 0 (c1 :: r1)
      rw [hcur, hrem] at hdec
      simp at hdec
      obtain ⟨h1, -⟩ := hdec
      rw [h1] at hlong
      omega

theorem wrapStep_measure (w : Nat) (c1 : List Char)
    (r1 : List (List Char)) :
    wrapMeasure (wrapStep w (c1 :: r1)).2 < wrapMeasure (c1 :: r1) := by
  have hdec := greedyTake_append w 0 (c1 :: r1)
  have hsum : wrapMeasure (c1 :: r1) =
      wrapMeasure (greedyTake w 0 (c1 :: r1)).1 +
        wrapMeasure (greedyTake w 0 (c1 :: r1)).2 := by
    rw [← wrapMeasure_append, hdec]
  simp only [wrapStep]
  rcases hrem : (greedyTake w 0 (c1 :: r1)).2 with _ | ⟨r, rs⟩
  · rw [hrem] at hsum
    simp only [wrapMeasure_cons]
    have : 0 < wrapMeasure (c1 :: r1) := by
      rw [wrapMeasure_cons]
      omega
    simpa [wrapMeasure, chunkLen] using this
  · rw [hrem] at hsum
    by_cases hlong : w < r.length
    · simp only [if_pos hlong]
      have hsplit := hlw_decomp w
        (chunkLen (greedyTake w 0 (c1 :: r1)).1) r
      have hlen : (_handle_long_word w
            (chunkLen (greedyTake w 0 (c1 :: r1)).1) r).1.length +
          (_handle_long_word w
            (chunkLen (greedyTake w 0 (c1 :: r1)).1) r).2.length =
          r.length := by
        rw [← congrArg List.length hsplit]
        simp
      have hr : 0 < r.length := by omega
      have hmg : wrapMeasure (greedyTake w 0 (c1 :: r1)).1 ≥
          chunkLen (greedyTake w 0 (c1 :: r1)).1 := by
        simp [wrapMeasure]
      rcases hlw_piece_pos w (chunkLen (greedyTake w 0 (c1 :: r1)).1) r hr
        with hp | ⟨hw1, hcl⟩
      · rw [hsum, wrapMeasure_cons, wrapMeasure_cons]
        omega
      · rw [hsum, wrapMeasure_cons, wrapMeasure_cons]
        omega
    · simp only [if_neg hlong]
      have hne : (greedyTake w 0 (c1 :: r1)).1 ≠ [] := by
        intro hcur
        have hhead := greedyTake_nil_head w 0 c1 r1 hcur
        have hdec2 := greedyTake_append w 0 (c1 :: r1)
        rw [hcur, hrem] at hdec2
        simp at hdec2
        obtain ⟨h1, -⟩ := hdec2
        rw [h1] at hlong
        omega
      have hpos : 0 < wrapMeasure (greedyTake w 0 (c1 :: r1)).1 := by
        rcases hg1 : (greedyTake w 0 (c1 :: r1)).1 with _ | ⟨x, xs⟩
        · exact absurd hg1 hne
        · rw [wrapMeasure_cons]
          omega
      rw [hsum]
      omega

theorem wrapStep_chunkLen_le (w : Nat) (hw : 1 ≤ w)
    (cs : List (List Char)) : chunkLen (wrapStep w cs).1 ≤ w := by
  have hcl : chunkLen (greedyTake w 0 cs).1 ≤ w := by
    rcases greedyTake_len w 0 cs with h | h
    · rw [h]
      simp [chunkLen]
    · omega
  simp only [wrapStep]
  rcases hrem : (greedyTake w 0 cs).2 with _ | ⟨r, rs⟩
  · exact hcl
  · by_cases hlong : w < r.length
    · dsimp only
      rw [if_pos hlong, chunkLen_append, chunkLen_cons]
      have hple := hlw_piece_le w (chunkLen (greedyTake w 0 cs).1) r
      rw [if_neg (by omega : ¬ w < 1)] at hple
      have hz : chunkLen ([] : List (List Char)) = 0 := rfl
      omega
    · simpa [hlong] using hcl

theorem chunkLen_dropLast_le (l : List (List Char)) :
    chunkLen l.dropLast ≤ chunkLen l := by
  induction l with
  | nil => simp
  | cons c rest ih =>
    cases rest with
    | nil => simp [chunkLen]
    | cons d ds =>
      rw [List.dropLast_cons₂, chunkLen_cons, chunkLen_cons]
      have := ih
      rw [chunkLen_cons] at this
      omega

theorem chunkLen_dropTrailing_le (l : List (List Char)) :
    chunkLen (dropTrailingWsChunk l) ≤ chunkLen l := by
  simp only [dropTrailingWsChunk]
  rcases hl : l.getLast? with _ | last
  · exact le_refl _
  · dsimp only
    by_cases hws : isWsChunk last = true
    · rw [if_pos hws]
      exact chunkLen_dropLast_le l
    · rw [if_neg hws]

theorem wrapChunksFuel_line_le (w : Nat) (hw : 1 ≤ w) :
    ∀ (fuel : Nat) (hl : Bool) (cs : List (List Char)),
      ∀ l ∈ wrapChunksFuel w fuel hl cs, l.length ≤ w := by
  intro fuel
  induction fuel with
  | zero =>
    intro hl cs l hmem
    simp [wrapChunksFuel] at hmem
  | succ f ih =>
    intro hl cs l hmem
    rcases cs with _ | ⟨c, rest⟩
    · simp [wrapChunksFuel] at hmem
    · simp only [wrapChunksFuel] at hmem
      rcases hsc : (if hl && isWsChunk c then rest else c :: rest)
        with _ | ⟨c1, r1⟩
      · rw [hsc] at hmem
        simp at hmem
      · rw [hsc] at hmem
        simp only at hmem
        split at hmem
        · exact ih _ _ l hmem
        · rcases List.mem_cons.mp hmem with hline | hrec
          · subst hline
            rw [flatten_length_eq_chunkLen]
            calc chunkLen (dropTrailingWsChunk (wrapStep w (c1 :: r1)).1) ≤
                chunkLen (wrapStep w (c1 :: r1)).1 :=
                  chunkLen_dropTrailing_le _
              _ ≤ w := wrapStep_chunkLen_le w hw _
          · exact ih _ _ l hrec

theorem messageLines_line_le (msg : List Char) :
    ∀ l ∈ messageLines msg, l.length ≤ 50 := by
  intro l hmem
  simp only [messageLines] at hmem
  split at hmem
  · simp at hmem
    simp [hmem]
  · exact wrapChunksFuel_line_le 50 (by omega) _ _ _ l hmem

theorem messageLines_ne_nil (msg : List Char) : messageLines msg ≠ [] := by
  simp only [messageLines]
  split <;> simp_all

/-- Counterexample to C2 as frozen: a single 60-character word is one
word of the message, yet the wrapper splits it across two lines
(textwrap's default `break_long_words=True`), so no-word-splitting fails
for words longer than the column width. -/
theorem c2_counterexample :
    messageLines (List.replicate 60 'a') =
      [List.replicate 50 'a', List.replicate 10 'a'] ∧
    wordsOf (List.replicate 60 'a') = [List.replicate 60 'a'] := by
  constructor <;> decide

/-! ## Reading cells back out of rendered rows -/

theorem sliceCols_cons (name : String) (w : Nat)
    (rest : List (String × Nat)) (body tail : List Char)
    (h : body.length = w + 2 * padding) :
    sliceCols ((name, w) :: rest) (body ++ '|' :: tail) =
      body :: sliceCols rest tail := by
  have ht : (body ++ '|' :: tail).take (w + 2 * padding) = body := by
    rw [← h]
    exact List.take_left body ('|' :: tail)
  have hd : (body ++ '|' :: tail).drop (w + 2 * padding + 1) = tail := by
    rw [← h, ← List.drop_drop, List.drop_left]
    rfl
  simp only [sliceCols, ht, hd]

theorem renderCell_shape (w : Nat) (content : List Char)
    (h : content.length ≤ w + 1) :
    renderCell w content = padCell w content ++ ['|'] ∧
      (padCell w content).length = w + 2 * padding := by
  have htn : (((w : Int) - content.length + padding)).toNat =
      w + 1 - content.length := by
    simp only [padding]
    omega
  constructor
  · simp only [renderCell, padCell, htn]
    simp [padding, List.append_assoc]
  · simp only [padCell, padding, List.length_cons, List.length_append,
      List.length_replicate]
    omega

theorem sliceCols_blank_cons (name : String) (w : Nat)
    (rest : List (String × Nat)) (tail : List Char) :
    sliceCols ((name, w) :: rest)
        ((List.replicate (w + padding * 2) ' ' ++ ['|']) ++ tail) =
      List.replicate (w + padding * 2) ' ' :: sliceCols rest tail := by
  rw [List.append_assoc, List.singleton_append]
  exact sliceCols_cons name w rest _ tail (by simp [padding])

theorem sliceCols_cell_cons (name : String) (w : Nat)
    (rest : List (String × Nat)) (content tail : List Char)
    (h : content.length ≤ w + 1) :
    sliceCols ((name, w) :: rest) (renderCell w content ++ tail) =
      padCell w content :: sliceCols rest tail := by
  obtain ⟨hshape, hlen⟩ := renderCell_shape w content h
  rw [hshape, List.append_assoc, List.singleton_append]
  exact sliceCols_cons name w rest _ tail hlen

theorem sliceCols_renderCells :
    ∀ (spec : List (String × Nat)) (cells : String → List Char),
      (∀ nw ∈ spec, (cells nw.1).length ≤ nw.2 + 1) →
      sliceCols spec
          ((spec.map fun nw => renderCell nw.2 (cells nw.1))).flatten =
        spec.map fun nw => padCell nw.2 (cells nw.1)
  | [], _, _ => rfl
  | (name, w) :: rest, cells, h => by
    simp only [List.map_cons, List.flatten_cons]
    rw [sliceCols_cell_cons name w rest _ _ (h (name, w) (by simp))]
    congr 1
    exact sliceCols_renderCells rest cells
      (fun nw hnw => h nw (by simp [hnw]))

theorem messageLines_headD_le (msg : List Char) :
    ((messageLines msg).headD []).length ≤ 50 := by
  rcases hml : messageLines msg with _ | ⟨x, xs⟩
  · exact absurd hml (messageLines_ne_nil msg)
  · have := messageLines_line_le msg x (by rw [hml]; simp)
    simpa using this

theorem sliceCols_blank_last (name : String) (w : Nat) :
    sliceCols [(name, w)] (List.replicate (w + padding * 2) ' ' ++ ['|']) =
      [List.replicate (w + padding * 2) ' '] := by
  have h := sliceCols_blank_cons name w [] []
  simpa using h

theorem contRow_slices (line : List Char) (h : line.length ≤ 50) :
    sliceCols col_widths ((contRow line).drop 1) =
      [List.replicate 27 ' ', List.replicate 17 ' ', List.replicate 32 ' ',
       List.replicate 27 ' ', padCell 50 line, List.replicate 17 ' ',
       List.replicate 17 ' '] := by
  show sliceCols col_widths ((col_widths.map fun nw =>
      if nw.1 = "message" then renderCell nw.2 line
      else List.replicate (nw.2 + padding * 2) ' ' ++ ['|']).flatten) = _
  simp only [col_widths, List.map_cons, List.map_nil, List.flatten_cons,
    List.flatten_nil, List.append_nil, String.reduceEq, reduceIte]
  rw [sliceCols_blank_cons, sliceCols_blank_cons, sliceCols_blank_cons,
    sliceCols_blank_cons, sliceCols_cell_cons _ _ _ _ _ (by omega),
    sliceCols_blank_cons, sliceCols_blank_last]
  norm_num [padding]

/-- Claim C4: one `log_entry` call writes exactly one full table row plus
one continuation row per wrapped message line after the first — so
`1 + max(0, wrapped_line_count - 1)` rows — and in every continuation
row only the message column carries content, each other column reading
back as a blank cell of its fixed width plus padding. -/
theorem c4_row_count_and_continuations :
    ∀ a : LogEntryArgs,
      ((log_table_rows a).length : Int) =
        1 + max 0 (((messageLines a.log_message).length : Int) - 1) ∧
      (log_table_rows a).drop 1 =
        ((messageLines a.log_message).drop 1).map contRow ∧
      ∀ line ∈ (messageLines a.log_message).drop 1,
        sliceCols col_widths ((contRow line).drop 1) =
          [List.replicate 27 ' ', List.replicate 17 ' ',
           List.replicate 32 ' ', List.replicate 27 ' ', padCell 50 line,
           List.replicate 17 ' ', List.replicate 17 ' '] := by
  intro a
  refine ⟨?_, rfl, ?_⟩
  · have hne := messageLines_ne_nil a.log_message
    have hlen : 1 ≤ (messageLines a.log_message).length :=
      List.length_pos.mpr hne
    simp only [log_table_rows, List.length_cons, List.length_map,
      List.length_drop]
    omega
  · intro line hmem
    have hline : line ∈ messageLines a.log_message :=
      List.mem_of_mem_drop hmem
    exact contRow_slices line (messageLines_line_le _ line hline)

/-- Witness for C4: the second wrapped line of a 60-character message
reads back as a continuation row with blanks everywhere except the
message cell. -/
theorem c4_row_count_and_continuations_witness :
    sliceCols col_widths
        ((contRow (List.replicate 10 'a')).drop 1) =
      [List.replicate 27 ' ', List.replicate 17 ' ',
       List.replicate 32 ' ', List.replicate 27 ' ',
       padCell 50 (List.replicate 10 'a'),
       List.replicate 17 ' ', List.replicate 17 ' '] :=
  (c4_row_count_and_continuations
    ⟨"f".toList, List.replicate 60 'a', Sum.inl .core, Sum.inl .info,
      none, "t".toList, "s.py".toList, "p".toList⟩).2.2
    (List.replicate 10 'a') (by decide)

/-- Claim C5: reading the first rendered row back cell by cell, every
column except `message` carries its field value cut by `[:w]` to the
fixed column width (and `take` cuts an over-long value to exactly that
width, as the second conjunct states), while the message column carries
the full first wrapped line — bounded by the wrap itself, never cut. -/
theorem c5_field_truncation :
    ∀ a : LogEntryArgs,
      sliceCols col_widths ((renderRow (log_values a)).drop 1) =
        [padCell 25 (a.timestamp.take 25),
         padCell 15 ((a.task_name.getD a.project_name).take 15),
         padCell 30 (a.function_name.take 30),
         padCell 25 (a.source_file.take 25),
         padCell 50 ((messageLines a.log_message).headD []),
         padCell 15 ((coerceProcessType a.process_type).value.toList.take 15),
         padCell 15 ((coerceLogStatus a.status).value.toList.take 15)] ∧
      (∀ (v : List Char) (w : Nat), w < v.length → (v.take w).length = w) ∧
      (∀ line ∈ messageLines a.log_message, line.length ≤ 50) := by
  intro a
  refine ⟨?_, ?_, messageLines_line_le _⟩
  · have hb : ∀ nw ∈ col_widths,
        ((log_values a) nw.1).length ≤ nw.2 + 1 := by
      intro nw hnw
      fin_cases hnw <;>
        simp only [log_values, String.reduceEq, reduceIte,
          List.length_take] <;>
        first
          | omega
          | exact le_trans (messageLines_headD_le a.log_message) (by omega)
    have h0 : (renderRow (log_values a)).drop 1 =
        ((col_widths.map fun nw =>
          renderCell nw.2 ((log_values a) nw.1))).flatten := rfl
    rw [h0, sliceCols_renderCells col_widths _ hb]
    simp only [col_widths, List.map_cons, List.map_nil, log_values,
      String.reduceEq, reduceIte]
  · intro v w hw
    rw [List.length_take]
    omega

/-- Witness for C5: `take` truncates a 20-character value to exactly 15
characters, and the first wrapped line of a long message fits the
50-character message column. -/
theorem c5_field_truncation_witness :
    ((List.replicate 20 'x').take 15).length = 15 ∧
    (List.replicate 50 'a').length ≤ 50 :=
  ⟨(c5_field_truncation
      ⟨"f".toList, List.replicate 60 'a', Sum.inl .core, Sum.inl .info,
        none, "t".toList, "s.py".toList, "p".toList⟩).2.1
      (List.replicate 20 'x') 15 (by decide),
   (c5_field_truncation
      ⟨"f".toList, List.replicate 60 'a', Sum.inl .core, Sum.inl .info,
        none, "t".toList, "s.py".toList, "p".toList⟩).2.2
      (List.replicate 50 'a') (by decide)⟩

/-! ## Chunk-split characterization (toward the word-preservation
theorem for C2) -/

theorem isWsChunk_cons (c : Char) (l : List Char) :
    isWsChunk (c :: l) = (isPyWs c && isWsChunk l) := by
  simp [isWsChunk]

theorem splitChunks_ne_nil :
    ∀ (l : List Char), ∀ g ∈ splitChunks l, g ≠ [] := by
  intro l
  induction l with
  | nil => intro g hg; simp [splitChunks] at hg
  | cons c rest ih =>
    intro g hg
    simp only [splitChunks] at hg
    rcases heq : splitChunks rest with _ | ⟨g1, gs⟩
    · rw [heq] at hg
      simp at hg
      simp [hg]
    · rw [heq] at hg
      rcases g1 with _ | ⟨d, ds⟩
      · have : ([] : List Char) ∈ splitChunks rest := by
          rw [heq]; exact List.mem_cons_self _ _
        exact absurd rfl (ih [] this)
      · simp only at hg
        split at hg
        · rcases List.mem_cons.mp hg with h | h
          · simp [h]
          · exact ih g (by rw [heq]; exact List.mem_cons_of_mem _ h)
        · rcases List.mem_cons.mp hg with h | h
          · simp [h]
          · exact ih g (by rw [heq]; exact h)

theorem splitChunks_eq_nil (l : List Char) :
    splitChunks l = [] → l = [] := by
  cases l with
  | nil => intro; rfl
  | cons c rest =>
    intro h
    simp only [splitChunks] at h
    rcases heq : splitChunks rest with _ | ⟨g1, gs⟩
    · rw [heq] at h
      simp at h
    · rw [heq] at h
      rcases g1 with _ | ⟨d, ds⟩
      · simp at h
      · simp only at h
        split at h <;> simp at h

theorem splitChunks_flatten :
    ∀ (l : List Char), (splitChunks l).flatten = l := by
  intro l
  induction l with
  | nil => rfl
  | cons c rest ih =>
    simp only [splitChunks]
    rcases heq : splitChunks rest with _ | ⟨g1, gs⟩
    · have := splitChunks_eq_nil rest heq
      subst this
      rfl
    · rw [heq] at ih
      rcases g1 with _ | ⟨d, ds⟩
      · have : ([] : List Char) ∈ splitChunks rest := by
          rw [heq]; exact List.mem_cons_self _ _
        exact absurd rfl (splitChunks_ne_nil rest [] this)
      · simp only
        split
        · simpa using ih
        · simpa using ih

theorem splitChunks_uniform :
    ∀ (l : List Char), ∀ g ∈ splitChunks l, ∀ x ∈ g,
      isPyWs x = isWsChunk g := by
  intro l
  induction l with
  | nil => intro g hg; simp [splitChunks] at hg
  | cons c rest ih =>
    intro g hg
    simp only [splitChunks] at hg
    rcases heq : splitChunks rest with _ | ⟨g1, gs⟩
    · rw [heq] at hg
      simp at hg
      subst hg
      intro x hx
      simp at hx
      simp [hx, isWsChunk]
    · rw [heq] at hg
      rcases g1 with _ | ⟨d, ds⟩
      · have : ([] : List Char) ∈ splitChunks rest := by
          rw [heq]; exact List.mem_cons_self _ _
        exact absurd rfl (splitChunks_ne_nil rest [] this)
      · simp only at hg
        have hd : ∀ x ∈ d :: ds, isPyWs x = isWsChunk (d :: ds) :=
          ih (d :: ds) (by rw [heq]; exact List.mem_cons_self _ _)
        have hdd : isPyWs d = isWsChunk (d :: ds) :=
          hd d (List.mem_cons_self _ _)
        split at hg
        · rename_i hcd
          rcases List.mem_cons.mp hg with h | h
          · subst h
            have hws : isWsChunk (c :: d :: ds) = isPyWs c := by
              rw [isWsChunk_cons, ← hdd, ← hcd, Bool.and_self]
            intro x hx
            rcases List.mem_cons.mp hx with hx1 | hx2
            · rw [hx1, hws]
            · rw [hws, hcd, hdd]
              exact hd x hx2
          · exact ih g (by rw [heq]; exact List.mem_cons_of_mem _ h)
        · rcases List.mem_cons.mp hg with h | h
          · subst h
            intro x hx
            simp at hx
            simp [hx, isWsChunk]
          · exact ih g (by rw [heq]; exact h)

theorem splitChunks_chain :
    ∀ (l : List Char),
      List.Chain' (fun a b => isWsChunk a ≠ isWsChunk b) (splitChunks l) := by
  intro l
  induction l with
  | nil => simp [splitChunks]
  | cons c rest ih =>
    simp only [splitChunks]
    rcases heq : splitChunks rest with _ | ⟨g1, gs⟩
    · simp
    · rw [heq] at ih
      rcases g1 with _ | ⟨d, ds⟩
      · have : ([] : List Char) ∈ splitChunks rest := by
          rw [heq]; exact List.mem_cons_self _ _
        exact absurd rfl (splitChunks_ne_nil rest [] this)
      · have hdd : isPyWs d = isWsChunk (d :: ds) :=
          splitChunks_uniform rest (d :: ds)
            (by rw [heq]; exact List.mem_cons_self _ _) d
            (List.mem_cons_self _ _)
        simp only
        split
        · rename_i hcd
          have hws : isWsChunk (c :: d :: ds) = isWsChunk (d :: ds) := by
            rw [isWsChunk_cons, ← hdd, hcd, Bool.and_self]
          cases gs with
          | nil => simp
          | cons g2 gs2 =>
            rw [List.chain'_cons] at ih ⊢
            exact ⟨by rw [hws]; exact ih.1, ih.2⟩
        · rename_i hcd
          rw [List.chain'_cons]
          constructor
          · have h1 : isWsChunk [c] = isPyWs c := by
              simp [isWsChunk]
            rw [h1, ← hdd]
            exact fun hcontra => hcd hcontra
          · exact ih

theorem splitChunks_head (c : Char) (rest : List Char) :
    ∃ t gs, splitChunks (c :: rest) = (c :: t) :: gs := by
  simp only [splitChunks]
  rcases heq : splitChunks rest with _ | ⟨g1, gs⟩
  · exact ⟨[], [], rfl⟩
  · rcases g1 with _ | ⟨d, ds⟩
    · exact ⟨[], [] :: gs, rfl⟩
    · dsimp only
      split
      · exact ⟨d :: ds, gs, rfl⟩
      · exact ⟨[], (d :: ds) :: gs, rfl⟩

theorem splitChunks_append_run :
    ∀ (c : List Char) (b : Bool) (rest : List Char),
      c ≠ [] → (∀ x ∈ c, isPyWs x = b) →
      (∀ d, rest.head? = some d → isPyWs d = !b) →
      splitChunks (c ++ rest) = c :: splitChunks rest := by
  intro c
  induction c with
  | nil => intro b rest h; exact absurd rfl h
  | cons x c' ih =>
    intro b rest _ huni hhead
    rcases c' with _ | ⟨y, c''⟩
    · rcases rest with _ | ⟨d, r'⟩
      · simp [splitChunks]
      · obtain ⟨t, gs, hsp⟩ := splitChunks_head d r'
        show splitChunks (x :: d :: r') = [x] :: splitChunks (d :: r')
        rw [splitChunks, hsp]
        dsimp only
        have hx : isPyWs x = b := huni x (List.mem_cons_self _ _)
        have hd : isPyWs d = !b := hhead d rfl
        rw [if_neg (by rw [hx, hd]; cases b <;> simp)]
    · have hrec := ih b rest (by simp)
        (fun z hz => huni z (List.mem_cons_of_mem _ hz)) hhead
      show splitChunks (x :: ((y :: c'') ++ rest)) = _
      rw [List.cons_append] at hrec ⊢
      rw [splitChunks, hrec]
      dsimp only
      rw [if_pos]
      rw [huni x (List.mem_cons_self _ _),
        huni y (List.mem_cons_of_mem _ (List.mem_cons_self _ _))]

theorem splitChunks_flatten_chunks :
    ∀ (cs : List (List Char)),
      (∀ g ∈ cs, g ≠ []) →
      (∀ g ∈ cs, ∀ x ∈ g, isPyWs x = isWsChunk g) →
      List.Chain' (fun a b => isWsChunk a ≠ isWsChunk b) cs →
      splitChunks cs.flatten = cs := by
  intro cs
  induction cs with
  | nil => intro _ _ _; rfl
  | cons c cs' ih =>
    intro hne huni hch
    rw [List.flatten_cons]
    rw [splitChunks_append_run c (isWsChunk c) cs'.flatten
      (hne c (List.mem_cons_self _ _)) (huni c (List.mem_cons_self _ _))
      ?hhead]
    · congr 1
      exact ih (fun g hg => hne g (List.mem_cons_of_mem _ hg))
        (fun g hg => huni g (List.mem_cons_of_mem _ hg)) hch.tail
    case hhead =>
      intro d hd
      rcases cs' with _ | ⟨g2, gs2⟩
      · simp at hd
      · rcases hg2 : g2 with _ | ⟨e, es⟩
        · exact absurd hg2
            (hne g2 (List.mem_cons_of_mem _ (List.mem_cons_self _ _)))
        · subst hg2
          rw [List.flatten_cons, List.cons_append, List.head?_cons] at hd
          have hde : d = e := by
            exact (Option.some.inj hd).symm
          subst hde
          have hdws : isPyWs d = isWsChunk (d :: es) :=
            huni (d :: es)
              (List.mem_cons_of_mem _ (List.mem_cons_self _ _)) d
              (List.mem_cons_self _ _)
          have hneq : isWsChunk c ≠ isWsChunk (d :: es) :=
            (List.chain'_cons.mp hch).1
          rw [hdws]
          rcases h1 : isWsChunk c with _ | _ <;>
            rcases h2 : isWsChunk (d :: es) with _ | _ <;>
            simp_all

theorem nonWsRuns_flatten_chunks (cs : List (List Char))
    (hne : ∀ g ∈ cs, g ≠ [])
    (huni : ∀ g ∈ cs, ∀ x ∈ g, isPyWs x = isWsChunk g)
    (hch : List.Chain' (fun a b => isWsChunk a ≠ isWsChunk b) cs) :
    nonWsRuns cs.flatten = cs.filter (fun g => !isWsChunk g) := by
  unfold nonWsRuns
  rw [splitChunks_flatten_chunks cs hne huni hch]

theorem filter_dropTrailingWs (l : List (List Char)) :
    (dropTrailingWsChunk l).filter (fun g => !isWsChunk g) =
      l.filter (fun g => !isWsChunk g) := by
  simp only [dropTrailingWsChunk]
  rcases hl : l.getLast? with _ | last
  · rfl
  · dsimp only
    by_cases hws : isWsChunk last = true
    · rw [if_pos hws]
      have hlne : l ≠ [] := by
        intro h
        rw [h] at hl
        simp at hl
      have hlast : l.getLast hlne = last := by
        have := List.getLast?_eq_getLast l hlne
        rw [hl] at this
        exact (Option.some.inj this).symm
      have hdecomp : l.dropLast ++ [last] = l := by
        rw [← hlast]
        exact List.dropLast_append_getLast hlne
      conv_rhs => rw [← hdecomp]
      rw [List.filter_append]
      simp [hws]
    · rw [if_neg hws]

theorem wrapChunksFuel_nil (w f : Nat) (hl : Bool) :
    wrapChunksFuel w f hl [] = [] := by
  cases f <;> rfl

theorem dropTrailing_pref (l : List (List Char)) :
    dropTrailingWsChunk l <+: l := by
  simp only [dropTrailingWsChunk]
  rcases l.getLast? with _ | last
  · exact List.prefix_refl l
  · dsimp only
    split
    · exact List.dropLast_prefix l
    · exact List.prefix_refl l

theorem dropTrailing_isEmpty_cases (l : List (List Char)) :
    dropTrailingWsChunk l = [] →
      l = [] ∨ ∃ x, l = [x] ∧ isWsChunk x = true := by
  simp only [dropTrailingWsChunk]
  rcases hl : l.getLast? with _ | last
  · intro h
    left
    exact h
  · dsimp only
    by_cases hws : isWsChunk last = true
    · rw [if_pos hws]
      intro h
      right
      have hlne : l ≠ [] := by
        intro hn
        rw [hn] at hl
        simp at hl
      have hlast : l.getLast hlne = last := by
        have := List.getLast?_eq_getLast l hlne
        rw [hl] at this
        exact (Option.some.inj this).symm
      have hdecomp : l.dropLast ++ [last] = l := by
        rw [← hlast]
        exact List.dropLast_append_getLast hlne
      refine ⟨last, ?_, hws⟩
      rw [← hdecomp, h]
      rfl
    · rw [if_neg hws]
      intro h
      left
      exact h

theorem ws_take (r : List Char) (n : Nat) (h : isWsChunk r = true) :
    isWsChunk (r.take n) = true := by
  simp only [isWsChunk, List.all_eq_true] at *
  intro x hx
  exact h x (List.mem_of_mem_take hx)

theorem ws_drop (r : List Char) (n : Nat) (h : isWsChunk r = true) :
    isWsChunk (r.drop n) = true := by
  simp only [isWsChunk, List.all_eq_true] at *
  intro x hx
  exact h x (List.mem_of_mem_drop hx)

theorem dropTrailing_concat_ws (l : List (List Char)) (x : List Char)
    (h : isWsChunk x = true) :
    dropTrailingWsChunk (l ++ [x]) = l := by
  simp only [dropTrailingWsChunk, List.getLast?_concat]
  rw [if_pos h, List.dropLast_concat]

theorem ws_uniform (l : List Char) (h : isWsChunk l = true) :
    ∀ x ∈ l, isPyWs x = isWsChunk l := by
  intro x hx
  rw [h]
  simp only [isWsChunk, List.all_eq_true] at h
  exact h x hx

theorem chain_head_congr (a a' : List Char) (l : List (List Char))
    (heq : isWsChunk a = isWsChunk a')
    (h : List.Chain' (fun u v => isWsChunk u ≠ isWsChunk v) (a :: l)) :
    List.Chain' (fun u v => isWsChunk u ≠ isWsChunk v) (a' :: l) := by
  cases l with
  | nil => simp
  | cons b bs =>
    rw [List.chain'_cons] at h ⊢
    exact ⟨by rw [← heq]; exact h.1, h.2⟩

theorem filter_ws_cons (x : List Char) (l : List (List Char))
    (h : isWsChunk x = true) :
    (x :: l).filter (fun g => !isWsChunk g) =
      l.filter (fun g => !isWsChunk g) := by
  simp [List.filter_cons, h]

theorem wrapIterStep (w f : Nat) (hw : 1 ≤ w)
    (ih : ∀ (hl : Bool) (cs : List (List Char)),
      wrapMeasure cs < f →
      (∀ g ∈ cs, g ≠ []) →
      (∀ g ∈ cs, ∀ x ∈ g, isPyWs x = isWsChunk g) →
      List.Chain' (fun a b => isWsChunk a ≠ isWsChunk b) cs →
      (∀ g ∈ cs, isWsChunk g = false → g.length ≤ w) →
      ((wrapChunksFuel w f hl cs).map nonWsRuns).flatten =
        cs.filter (fun g => !isWsChunk g))
    (hlx : Bool) (c1 : List Char) (r1 : List (List Char))
    (hm : wrapMeasure (c1 :: r1) < f + 1)
    (hne : ∀ g ∈ c1 :: r1, g ≠ [])
    (huni : ∀ g ∈ c1 :: r1, ∀ x ∈ g, isPyWs x = isWsChunk g)
    (hch : List.Chain' (fun a b => isWsChunk a ≠ isWsChunk b) (c1 :: r1))
    (hfit : ∀ g ∈ c1 :: r1, isWsChunk g = false → g.length ≤ w) :
    ((if (dropTrailingWsChunk (wrapStep w (c1 :: r1)).1).isEmpty
        then wrapChunksFuel w f hlx (wrapStep w (c1 :: r1)).2
        else (dropTrailingWsChunk (wrapStep w (c1 :: r1)).1).flatten ::
          wrapChunksFuel w f true (wrapStep w (c1 :: r1)).2).map
      nonWsRuns).flatten =
      (c1 :: r1).filter (fun g => !isWsChunk g) := by
  have hmeas := wrapStep_measure w c1 r1
  rcases hp : greedyTake w 0 (c1 :: r1) with ⟨cur, rem⟩
  have hdec : cur ++ rem = c1 :: r1 := by
    have h := greedyTake_append w 0 (c1 :: r1)
    rw [hp] at h
    exact h
  have hpref : cur <+: c1 :: r1 := ⟨rem, hdec⟩
  have hcur_mem : ∀ x ∈ cur, x ∈ c1 :: r1 := fun x hx => hpref.subset hx
  have hrem_mem : ∀ x ∈ rem, x ∈ c1 :: r1 := fun x hx => by
    rw [← hdec]
    exact List.mem_append_right _ hx
  have hfilter : (c1 :: r1).filter (fun g => !isWsChunk g) =
      cur.filter (fun g => !isWsChunk g) ++
        rem.filter (fun g => !isWsChunk g) := by
    conv_lhs => rw [← hdec]
    rw [List.filter_append]
  rcases rem with _ | ⟨r, rs⟩
  · -- all chunks were consumed into the line
    have hg1 : cur = c1 :: r1 := by simpa using hdec
    have hstep : wrapStep w (c1 :: r1) = (cur, []) := by
      simp only [wrapStep, hp]
    rw [hstep]
    dsimp only
    rw [wrapChunksFuel_nil, wrapChunksFuel_nil]
    by_cases hcur : (dropTrailingWsChunk cur).isEmpty = true
    · rw [if_pos hcur]
      have hc := dropTrailing_isEmpty_cases _ (List.isEmpty_iff.mp hcur)
      rw [hg1] at hc
      rcases hc with h | ⟨x, hx, hxws⟩
      · exact absurd h (by simp)
      · obtain ⟨hc1, hr1⟩ : c1 = x ∧ r1 = [] := by
          injection hx with h1 h2
          exact ⟨h1, h2⟩
        subst hc1
        subst hr1
        simp [filter_ws_cons _ _ hxws]
    · rw [if_neg hcur]
      simp only [List.map_cons, List.map_nil, List.flatten_cons,
        List.flatten_nil, List.append_nil]
      have hpre2 : dropTrailingWsChunk cur <+: (c1 :: r1) :=
        (dropTrailing_pref _).trans hpref
      rw [nonWsRuns_flatten_chunks _ (fun g hg => hne g (hpre2.subset hg))
        (fun g hg => huni g (hpre2.subset hg)) ( List.Chain'.prefix hch hpre2)]
      rw [filter_dropTrailingWs, hg1]
  · -- a chunk is left over
    have hrmem : r ∈ c1 :: r1 := hrem_mem r (List.mem_cons_self _ _)
    have hrsmem : ∀ x ∈ rs, x ∈ c1 :: r1 := fun x hx =>
      hrem_mem x (List.mem_cons_of_mem _ hx)
    have hchsuf : List.Chain'
        (fun a b => isWsChunk a ≠ isWsChunk b) (r :: rs) :=
      hch.suffix ⟨cur, hdec⟩
    by_cases hlong : w < r.length
    · -- `_handle_long_word` fires; under `hfit` the chunk is whitespace
      have hrws : isWsChunk r = true := by
        rcases hb : isWsChunk r with _ | _
        · exact absurd (hfit r hrmem hb) (by omega)
        · rfl
      have hstep : wrapStep w (c1 :: r1) =
          (cur ++ [(_handle_long_word w (chunkLen cur) r).1],
            (_handle_long_word w (chunkLen cur) r).2 :: rs) := by
        simp only [wrapStep, hp, if_pos hlong]
      have hpieceWs :
          isWsChunk (_handle_long_word w (chunkLen cur) r).1 = true := by
        simp only [_handle_long_word]
        exact ws_take r _ hrws
      have hdt : dropTrailingWsChunk
          (cur ++ [(_handle_long_word w (chunkLen cur) r).1]) = cur :=
        dropTrailing_concat_ws _ _ hpieceWs
      have hrdropWs :
          isWsChunk (_handle_long_word w (chunkLen cur) r).2 = true := by
        simp only [_handle_long_word]
        exact ws_drop r _ hrws
      have hrdropNe : (_handle_long_word w (chunkLen cur) r).2 ≠ [] := by
        simp only [_handle_long_word]
        intro hnil
        have hlen0 : (r.drop
            (hlwEnd (if w < 1 then 1 else w - chunkLen cur) r)).length =
            0 := by
          rw [hnil]
          rfl
        rw [List.length_drop] at hlen0
        have hsl_le : (if w < 1 then 1 else w - chunkLen cur) ≤ w := by
          split
          · omega
          · omega
        have := hlwEnd_le (if w < 1 then 1 else w - chunkLen cur) r
        omega
      have hq2ne : ∀ g ∈ (_handle_long_word w (chunkLen cur) r).2 :: rs,
          g ≠ [] := by
        intro g hg
        rcases List.mem_cons.mp hg with h | h
        · rw [h]
          exact hrdropNe
        · exact hne g (hrsmem g h)
      have hq2uni : ∀ g ∈ (_handle_long_word w (chunkLen cur) r).2 :: rs,
          ∀ x ∈ g, isPyWs x = isWsChunk g := by
        intro g hg
        rcases List.mem_cons.mp hg with h | h
        · rw [h]
          exact ws_uniform _ hrdropWs
        · exact huni g (hrsmem g h)
      have hq2ch : List.Chain' (fun a b => isWsChunk a ≠ isWsChunk b)
          ((_handle_long_word w (chunkLen cur) r).2 :: rs) :=
        chain_head_congr r _ rs (by rw [hrws, hrdropWs]) hchsuf
      have hq2fit : ∀ g ∈ (_handle_long_word w (chunkLen cur) r).2 :: rs,
          isWsChunk g = false → g.length ≤ w := by
        intro g hg hgws
        rcases List.mem_cons.mp hg with h | h
        · rw [h] at hgws
          rw [hrdropWs] at hgws
          cases hgws
        · exact hfit g (hrsmem g h) hgws
      have hq2meas : wrapMeasure
          ((_handle_long_word w (chunkLen cur) r).2 :: rs) < f := by
        rw [hstep] at hmeas
        dsimp only at hmeas
        omega
      rw [hstep]
      dsimp only
      rw [hdt]
      by_cases hcur : cur.isEmpty = true
      · rw [if_pos hcur]
        rw [ih hlx _ hq2meas hq2ne hq2uni hq2ch hq2fit]
        rw [filter_ws_cons _ _ hrdropWs, hfilter,
          List.isEmpty_iff.mp hcur, filter_ws_cons _ _ hrws]
        simp
      · rw [if_neg hcur]
        simp only [List.map_cons, List.flatten_cons]
        rw [nonWsRuns_flatten_chunks _
          (fun g hg => hne g (hpref.subset hg))
          (fun g hg => huni g (hpref.subset hg)) ( List.Chain'.prefix hch hpref)]
        rw [ih true _ hq2meas hq2ne hq2uni hq2ch hq2fit]
        rw [filter_ws_cons _ _ hrdropWs, hfilter,
          filter_ws_cons _ _ hrws]
    · -- the leftover chunk would fit a fresh line: plain line break
      have hstep : wrapStep w (c1 :: r1) = (cur, r :: rs) := by
        simp only [wrapStep, hp, if_neg hlong]
      have hq2ne : ∀ g ∈ r :: rs, g ≠ [] := fun g hg =>
        hne g (hrem_mem g hg)
      have hq2uni : ∀ g ∈ r :: rs, ∀ x ∈ g, isPyWs x = isWsChunk g :=
        fun g hg => huni g (hrem_mem g hg)
      have hq2fit : ∀ g ∈ r :: rs, isWsChunk g = false → g.length ≤ w :=
        fun g hg => hfit g (hrem_mem g hg)
      have hq2meas : wrapMeasure (r :: rs) < f := by
        rw [hstep] at hmeas
        dsimp only at hmeas
        omega
      rw [hstep]
      dsimp only
      by_cases hcur : (dropTrailingWsChunk cur).isEmpty = true
      · rw [if_pos hcur]
        rw [ih hlx _ hq2meas hq2ne hq2uni hchsuf hq2fit]
        rcases dropTrailing_isEmpty_cases _ (List.isEmpty_iff.mp hcur)
          with h | ⟨x, hx, hxws⟩
        · have hr' := greedyTake_nil_head w 0 c1 r1 (by rw [hp]; rw [h])
          rw [h] at hdec
          simp at hdec
          obtain ⟨h1, -⟩ := hdec
          rw [h1] at hlong
          omega
        · rw [hfilter, hx, filter_ws_cons _ _ hxws]
          simp
      · rw [if_neg hcur]
        simp only [List.map_cons, List.flatten_cons]
        have hpre2 : dropTrailingWsChunk cur <+: (c1 :: r1) :=
          (dropTrailing_pref _).trans hpref
        rw [nonWsRuns_flatten_chunks _
          (fun g hg => hne g (hpre2.subset hg))
          (fun g hg => huni g (hpre2.subset hg)) ( List.Chain'.prefix hch hpre2)]
        rw [filter_dropTrailingWs,
          ih true _ hq2meas hq2ne hq2uni hchsuf hq2fit, hfilter]

theorem wrapChunksFuel_words (w : Nat) (hw : 1 ≤ w) :
    ∀ (fuel : Nat) (hl : Bool) (cs : List (List Char)),
      wrapMeasure cs < fuel →
      (∀ g ∈ cs, g ≠ []) →
      (∀ g ∈ cs, ∀ x ∈ g, isPyWs x = isWsChunk g) →
      List.Chain' (fun a b => isWsChunk a ≠ isWsChunk b) cs →
      (∀ g ∈ cs, isWsChunk g = false → g.length ≤ w) →
      ((wrapChunksFuel w fuel hl cs).map nonWsRuns).flatten =
        cs.filter (fun g => !isWsChunk g) := by
  intro fuel
  induction fuel with
  | zero =>
    intro hl cs hm _ _ _ _
    exact absurd hm (Nat.not_lt_zero _)
  | succ f ih =>
    intro hl cs hm hne huni hch hfit
    rcases cs with _ | ⟨c, rest⟩
    · rfl
    · simp only [wrapChunksFuel]
      by_cases hdrop : (hl && isWsChunk c) = true
      · rw [if_pos hdrop]
        have hcws : isWsChunk c = true := ((Bool.and_eq_true _ _).mp hdrop).2
        rw [filter_ws_cons c rest hcws]
        rcases rest with _ | ⟨c1, r1⟩
        · simp
        · dsimp only
          refine wrapIterStep w f hw ih hl c1 r1 ?_ ?_ ?_ ?_ ?_
          · rw [wrapMeasure_cons] at hm
            omega
          · exact fun g hg => hne g (List.mem_cons_of_mem _ hg)
          · exact fun g hg => huni g (List.mem_cons_of_mem _ hg)
          · exact hch.tail
          · exact fun g hg => hfit g (List.mem_cons_of_mem _ hg)
      · rw [if_neg hdrop]
        dsimp only
        exact wrapIterStep w f hw ih hl c rest hm hne huni hch hfit

/-- Claim C2 as amended: on hyphen-free ASCII messages whose words all
fit the 50-character column, the wrapper never splits a word — the words
read back from the wrapped lines are exactly the words of the message —
and the empty message wraps to exactly one empty line. (The hypotheses
scope the statement to inputs where this model provably coincides with
CPython `textwrap`: `break_on_hyphens` can break hyphenated words, and by
`c2_counterexample` a word longer than the column width is split.) -/
theorem c2_wrap_never_splits_fitting_words :
    ∀ (msg : List Char),
      (∀ c ∈ msg, c.toNat < 128) →
      '-' ∉ msg →
      (∀ gw ∈ wordsOf msg, gw.length ≤ 50) →
      ((messageLines msg).map nonWsRuns).flatten = wordsOf msg ∧
      messageLines ([] : List Char) = [[]] := by
  intro msg _hascii _hdash hfits
  have hmain : ((textwrap_wrap 50 msg).map nonWsRuns).flatten =
      wordsOf msg := by
    unfold textwrap_wrap
    exact wrapChunksFuel_words 50 (by omega) _ false _
      (by omega)
      (fun g hg => splitChunks_ne_nil _ g hg)
      (fun g hg => splitChunks_uniform _ g hg)
      (splitChunks_chain _)
      (fun g hg hgws => hfits g
        (List.mem_filter.mpr ⟨hg, by simp [hgws]⟩))
  constructor
  · simp only [messageLines]
    by_cases hnil : (textwrap_wrap 50 msg).isEmpty = true
    · rw [if_pos hnil]
      have hempty : textwrap_wrap 50 msg = [] := List.isEmpty_iff.mp hnil
      rw [hempty] at hmain
      simp only [List.map_nil, List.flatten_nil] at hmain
      rw [← hmain]
      simp [nonWsRuns, splitChunks]
    · rw [if_neg hnil]
      exact hmain
  · decide

/-- Witness for the amended C2 at a concrete two-word message. -/
theorem c2_wrap_never_splits_fitting_words_witness :
    ((messageLines "hello world".toList).map nonWsRuns).flatten =
      wordsOf "hello world".toList ∧
    messageLines ([] : List Char) = [[]] :=
  c2_wrap_never_splits_fitting_words "hello world".toList (by decide)
    (by decide) (by decide)

theorem getPath_safe :
    ∀ (ps : List String) (cur dflt : JValue),
      pathSafe cur ps = true →
      (∃ v, getPath cur ps dflt = .ok v) ∧
      (pathMissing cur ps = true → getPath cur ps dflt = .ok dflt) := by
  intro ps
  induction ps with
  | nil =>
    intro cur dflt _
    exact ⟨⟨cur, by simp [getPath]⟩, fun h => by simp [pathMissing] at h⟩
  | cons p ps ih =>
    intro cur dflt hsafe
    rcases cur with prim | d
    · simp [pathSafe] at hsafe
    · simp only [pathSafe] at hsafe
      simp only [getPath, pathMissing]
      rcases hget : dictGet? d p with _ | v
      · exact ⟨⟨dflt, rfl⟩, fun _ => rfl⟩
      · rw [hget] at hsafe
        exact ih v dflt hsafe

/-- Counterexample to C7 as frozen: `"general.theme.s"` has a missing
segment in the dict sense — navigation cannot go below the string leaf
`general.theme` — yet `get_setting` raises (`TypeError`: string indices
must be integers) instead of returning the fallback, because `"s"` is a
substring of the stored theme string, so `part in current` succeeds and
`current[part]` is evaluated on a `str`. -/
theorem c7_counterexample :
    get_setting none "general.theme.s" (JValue.prim (.s "X")) =
      .error () := by decide

/-- Claim C7 as amended: the concrete set-then-get round-trip on
`speech_recognition.language` returns `"en-US"` and the concrete
`get_setting("nonexistent.path", "X")` returns `"X"`; and in general the
fallback-not-raise behaviour holds for every path whose navigation only
meets mappings until it stops (`pathSafe`): `get_setting` then returns
normally, and returns the caller's fallback whenever some segment is
missing. (By `c7_counterexample`, a path descending into a scalar can
instead raise, so the universal fallback claim needs the `pathSafe`
guard.) -/
theorem c7_roundtrip_and_safe_fallback :
    ∀ (disk : Disk) (path : String) (dflt : JValue),
      pathSafe (.obj (load_settings disk)) (splitDotStr path) = true →
      ((∃ v, get_setting disk path dflt = .ok v) ∧
       (pathMissing (.obj (load_settings disk)) (splitDotStr path) = true →
        get_setting disk path dflt = .ok dflt)) ∧
      (do
        let d ← set_setting none "speech_recognition.language"
          (JValue.prim (.s "en-US"))
        get_setting d "speech_recognition.language"
          (JValue.prim (.s "X"))) = Except.ok (JValue.prim (.s "en-US")) ∧
      get_setting none "nonexistent.path" (JValue.prim (.s "X")) =
        .ok (JValue.prim (.s "X")) := by
  intro disk path dflt hsafe
  exact ⟨getPath_safe (splitDotStr path) (.obj (load_settings disk)) dflt
    hsafe, by decide, by decide⟩

/-- Witness for the amended C7 at the claim's own missing path. -/
theorem c7_roundtrip_and_safe_fallback_witness :
    pathSafe (.obj (load_settings none))
      (splitDotStr "nonexistent.path") = true ∧
    (((∃ v, get_setting none "nonexistent.path"
        (JValue.prim (.s "X")) = .ok v) ∧
      (pathMissing (.obj (load_settings none))
          (splitDotStr "nonexistent.path") = true →
       get_setting none "nonexistent.path" (JValue.prim (.s "X")) =
         .ok (JValue.prim (.s "X")))) ∧
     (do
       let d ← set_setting none "speech_recognition.language"
         (JValue.prim (.s "en-US"))
       get_setting d "speech_recognition.language"
         (JValue.prim (.s "X"))) = Except.ok (JValue.prim (.s "en-US")) ∧
     get_setting none "nonexistent.path" (JValue.prim (.s "X")) =
       .ok (JValue.prim (.s "X"))) :=
  ⟨by decide, c7_roundtrip_and_safe_fallback none "nonexistent.path"
    (JValue.prim (.s "X")) (by decide)⟩

theorem jvalSize_pos (v : JValue) : 1 ≤ jvalSize v := by
  cases v with
  | prim s => simp [jvalSize]
  | obj d => simp only [jvalSize]; omega

theorem containsStr_iff (l : List String) (a : String) :
    l.contains a = true ↔ a ∈ l := List.elem_iff

theorem contains_false_entries (d : Obj) (k : String)
    (h : (d.map Prod.fst).contains k = false) : ∀ kv ∈ d, kv.1 ≠ k := by
  intro kv hkv heq
  have hmem : k ∈ d.map Prod.fst := heq ▸ List.mem_map_of_mem Prod.fst hkv
  have hc := (containsStr_iff (d.map Prod.fst) k).mpr hmem
  rw [h] at hc
  cases hc

theorem dictGet?_none_forall (d : Obj) (k : String)
    (h : dictGet? d k = none) : ∀ kv ∈ d, kv.1 ≠ k := by
  induction d with
  | nil => intro kv hkv; cases hkv
  | cons qw rest ih =>
    rcases qw with ⟨q, w⟩
    simp only [dictGet?] at h
    by_cases hq : q = k
    · rw [if_pos hq] at h; cases h
    · rw [if_neg hq] at h
      intro kv hkv
      rcases List.mem_cons.mp hkv with hkv | hkv
      · rw [hkv]; exact hq
      · exact ih h kv hkv

theorem dictGet?_eq_none_of_forall (d : Obj) (k : String)
    (h : ∀ kv ∈ d, kv.1 ≠ k) : dictGet? d k = none := by
  induction d with
  | nil => rfl
  | cons qw rest ih =>
    rcases qw with ⟨q, w⟩
    simp only [dictGet?]
    rw [if_neg (h (q, w) (List.mem_cons_self _ _))]
    exact ih (fun kv hkv => h kv (List.mem_cons_of_mem _ hkv))

theorem dictGet?_some_wf (d : Obj) (k : String) (v : JValue)
    (h : dictGet? d k = some v) (hwf : docWFEntries d = true) :
    docWF v = true := by
  induction d with
  | nil => cases h
  | cons qw rest ih =>
    rcases qw with ⟨q, w⟩
    simp only [dictGet?] at h
    simp only [docWFEntries, Bool.and_eq_true] at hwf
    by_cases hq : q = k
    · rw [if_pos hq] at h; injection h with h; rw [← h]; exact hwf.1
    · rw [if_neg hq] at h; exact ih h hwf.2

theorem dictGet?_dictSet_ne (d : Obj) (k k' : String) (v : JValue)
    (h : k' ≠ k) : dictGet? (dictSet d k v) k' = dictGet? d k' := by
  induction d with
  | nil =>
    simp only [dictSet, dictGet?]
    rw [if_neg (fun hh => h hh.symm)]
  | cons qw rest ih =>
    rcases qw with ⟨q, w⟩
    by_cases hq : q = k
    · subst hq
      simp only [dictSet, if_pos rfl, dictGet?]
      rw [if_neg (fun hh => h hh.symm), if_neg (fun hh => h hh.symm)]
    · simp only [dictSet, if_neg hq, dictGet?]
      by_cases hq' : q = k'
      · rw [if_pos hq', if_pos hq']
      · rw [if_neg hq', if_neg hq', ih]

theorem dictSet_append_of_none (d : Obj) (k : String) (v : JValue)
    (h : dictGet? d k = none) : dictSet d k v = d ++ [(k, v)] := by
  induction d with
  | nil => rfl
  | cons qw rest ih =>
    rcases qw with ⟨q, w⟩
    simp only [dictGet?] at h
    by_cases hq : q = k
    · rw [if_pos hq] at h; cases h
    · rw [if_neg hq] at h
      simp [dictSet, if_neg hq, ih h]

theorem map_fst_dictSet (d : Obj) (k : String) (v : JValue) :
    (dictSet d k v).map Prod.fst =
      if dictGet? d k = none then d.map Prod.fst ++ [k]
      else d.map Prod.fst := by
  induction d with
  | nil => simp [dictSet, dictGet?]
  | cons qw rest ih =>
    rcases qw with ⟨q, w⟩
    by_cases hq : q = k
    · simp [dictSet, dictGet?, hq]
    · by_cases hrest : dictGet? rest k = none
      · simp [dictSet, dictGet?, hq, hrest, ih]
      · simp [dictSet, dictGet?, hq, hrest, ih]

theorem keysNodupB_iff (l : List String) : keysNodupB l = true ↔ l.Nodup := by
  induction l with
  | nil => simp [keysNodupB]
  | cons a rest ih =>
    simp only [keysNodupB, Bool.and_eq_true, Bool.not_eq_true', ih,
      List.nodup_cons]
    constructor
    · intro ⟨h1, h2⟩
      refine ⟨fun hm => ?_, h2⟩
      rw [(containsStr_iff rest a).mpr hm] at h1
      cases h1
    · intro ⟨h1, h2⟩
      refine ⟨?_, h2⟩
      cases hc : rest.contains a
      · rfl
      · exact absurd ((containsStr_iff rest a).mp hc) h1

theorem keysNodupB_dictSet (d : Obj) (k : String) (v : JValue)
    (h : keysNodupB (d.map Prod.fst) = true) :
    keysNodupB ((dictSet d k v).map Prod.fst) = true := by
  rw [keysNodupB_iff] at h ⊢
  rw [map_fst_dictSet]
  by_cases hd : dictGet? d k = none
  · rw [if_pos hd]
    refine List.Nodup.append h (List.nodup_singleton k) ?_
    intro a ha hak
    obtain ⟨kv, hkv, hfst⟩ := List.mem_map.mp ha
    exact dictGet?_none_forall d k hd kv hkv
      (hfst.trans (List.mem_singleton.mp hak))
  · rw [if_neg hd]; exact h

theorem docWFEntries_dictSet (d : Obj) (k : String) (v : JValue)
    (hd : docWFEntries d = true) (hv : docWF v = true) :
    docWFEntries (dictSet d k v) = true := by
  induction d with
  | nil => simp [dictSet, docWFEntries, hv]
  | cons qw rest ih =>
    rcases qw with ⟨q, w⟩
    simp only [docWFEntries, Bool.and_eq_true] at hd
    by_cases hq : q = k
    · simp only [dictSet, if_pos hq, docWFEntries, Bool.and_eq_true]
      exact ⟨hv, hd.2⟩
    · simp only [dictSet, if_neg hq, docWFEntries, Bool.and_eq_true]
      exact ⟨hd.1, ih hd.2⟩

theorem specMergeEntries_nil_right (base : Obj) :
    specMergeEntries base [] = base := by
  induction base with
  | nil => rfl
  | cons kv rest ih =>
    rcases kv with ⟨k, v⟩
    simp [specMergeEntries, dictGet?, ih]

theorem specMergeEntries_append (a b n : Obj) :
    specMergeEntries (a ++ b) n =
      specMergeEntries a n ++ specMergeEntries b n := by
  induction a with
  | nil => rfl
  | cons kv rest ih =>
    rcases kv with ⟨k, v⟩
    simp [specMergeEntries, ih]

theorem specMergeEntries_skip_head (base : Obj) (k : String) (v : JValue)
    (n : Obj) (h : ∀ kv ∈ base, kv.1 ≠ k) :
    specMergeEntries base ((k, v) :: n) = specMergeEntries base n := by
  induction base with
  | nil => rfl
  | cons qw rest ih =>
    rcases qw with ⟨q, w⟩
    have hq : q ≠ k := h (q, w) (List.mem_cons_self _ _)
    simp only [specMergeEntries, dictGet?]
    rw [if_neg (fun hh => hq hh.symm)]
    rw [ih (fun kv hkv => h kv (List.mem_cons_of_mem _ hkv))]

theorem specMergeEntries_set_present :
    ∀ (base : Obj) (k : String) (bv v : JValue) (n : Obj),
      dictGet? base k = some bv → dictGet? n k = none →
      keysNodupB (base.map Prod.fst) = true →
      specMergeEntries (dictSet base k (specDeepMerge bv v)) n =
        specMergeEntries base ((k, v) :: n) := by
  intro base
  induction base with
  | nil => intro k bv v n hbk _ _; simp [dictGet?] at hbk
  | cons qw rest ih =>
    intro k bv v n hbk hn hnodup
    rcases qw with ⟨q, w⟩
    simp only [List.map_cons, keysNodupB, Bool.and_eq_true,
      Bool.not_eq_true'] at hnodup
    obtain ⟨hqcont, hnodup2⟩ := hnodup
    simp only [dictGet?] at hbk
    by_cases hq : q = k
    · subst hq
      rw [if_pos rfl] at hbk
      injection hbk with hbv
      subst hbv
      simp only [dictSet, if_pos rfl, specMergeEntries, dictGet?]
      rw [hn]
      rw [specMergeEntries_skip_head rest q v n
        (contains_false_entries rest q hqcont)]
      rfl
    · rw [if_neg hq] at hbk
      simp only [dictSet, if_neg hq, specMergeEntries, dictGet?]
      rw [if_neg (fun hh => hq hh.symm)]
      rw [ih k bv v n hbk hn hnodup2]

theorem merge_spec_fuel :
    ∀ (fuel : Nat) (new base : Obj), objSize new < fuel →
      docWF (.obj base) = true → docWF (.obj new) = true →
      _update_nested_dict base new =
        specMergeEntries base new ++
          new.filter (fun kv => (dictGet? base kv.1).isNone) ∧
      docWF (.obj (_update_nested_dict base new)) = true := by
  intro fuel
  induction fuel with
  | zero => intro new base h; exact absurd h (Nat.not_lt_zero _)
  | succ f ih =>
    intro new base hsize hbase hnew
    rcases new with _ | ⟨⟨k, v⟩, rest⟩
    · refine ⟨?_, ?_⟩
      · simp [_update_nested_dict, specMergeEntries_nil_right]
      · exact hbase
    · have hjpos : 1 ≤ jvalSize v := jvalSize_pos v
      simp only [objSize] at hsize
      simp only [docWF, List.map_cons, keysNodupB, docWFEntries,
        Bool.and_eq_true, Bool.not_eq_true'] at hnew
      obtain ⟨⟨hkrest, hnodrest⟩, hvwf, hrestwf⟩ := hnew
      have hkrest2 : ∀ kv ∈ rest, kv.1 ≠ k :=
        contains_false_entries rest k hkrest
      have hrestk : dictGet? rest k = none :=
        dictGet?_eq_none_of_forall rest k hkrest2
      have hrestWF : docWF (.obj rest) = true := by
        simp only [docWF, Bool.and_eq_true]
        exact ⟨hnodrest, hrestwf⟩
      have hbase2 := hbase
      simp only [docWF, Bool.and_eq_true] at hbase2
      obtain ⟨hbnodup, hbentries⟩ := hbase2
      rcases hbk : dictGet? base k with _ | bv
      · -- the key is absent from the base: the entry is appended
        have hb1 : updateEntry base k v = dictSet base k v := by
          rcases v with sv | no
          · rfl
          · simp only [updateEntry]
            rw [hbk]
        have hb1wf : docWF (.obj (dictSet base k v)) = true := by
          simp only [docWF, Bool.and_eq_true]
          exact ⟨keysNodupB_dictSet base k v hbnodup,
            docWFEntries_dictSet base k v hbentries hvwf⟩
        have hstep : _update_nested_dict base ((k, v) :: rest) =
            _update_nested_dict (dictSet base k v) rest := by
          simp only [_update_nested_dict]
          rw [hb1]
        have hihrest := ih rest (dictSet base k v) (by omega) hb1wf hrestWF
        refine ⟨?_, ?_⟩
        · rw [hstep, hihrest.1]
          have hfil : rest.filter
                (fun kv => (dictGet? (dictSet base k v) kv.1).isNone) =
              rest.filter (fun kv => (dictGet? base kv.1).isNone) := by
            apply List.filter_congr
            intro kv hkv
            rw [dictGet?_dictSet_ne base k kv.1 v (hkrest2 kv hkv)]
          rw [hfil, dictSet_append_of_none base k v hbk,
            specMergeEntries_append]
          have hsingle : specMergeEntries [(k, v)] rest = [(k, v)] := by
            simp only [specMergeEntries]
            rw [hrestk]
          rw [hsingle, specMergeEntries_skip_head base k v rest
            (dictGet?_none_forall base k hbk)]
          simp [List.filter_cons, hbk, List.append_assoc]
        · rw [hstep]; exact hihrest.2
      · -- the key is present in the base: the values are merged
        have hbvwf : docWF bv = true := dictGet?_some_wf base k bv hbk hbentries
        have hm : updateEntry base k v = dictSet base k (specDeepMerge bv v) ∧
            docWF (specDeepMerge bv v) = true := by
          rcases v with sv | no
          · refine ⟨?_, ?_⟩
            · rcases bv with bsv | bo <;> rfl
            · rcases bv with bsv | bo <;> exact hvwf
          · simp only [jvalSize] at hsize
            rcases bv with bsv | bo
            · refine ⟨?_, ?_⟩
              · simp only [updateEntry]
                rw [hbk]
                rfl
              · exact hvwf
            · have hinner := ih no bo (by omega) hbvwf hvwf
              have hspec : specDeepMerge (.obj bo) (.obj no) =
                  JValue.obj (_update_nested_dict bo no) := by
                simp only [specDeepMerge]
                rw [hinner.1]
              refine ⟨?_, ?_⟩
              · simp only [updateEntry]
                rw [hbk, hspec]
              · rw [hspec]; exact hinner.2
        have hb1wf : docWF (.obj (dictSet base k (specDeepMerge bv v))) =
            true := by
          simp only [docWF, Bool.and_eq_true]
          exact ⟨keysNodupB_dictSet base k _ hbnodup,
            docWFEntries_dictSet base k _ hbentries hm.2⟩
        have hstep : _update_nested_dict base ((k, v) :: rest) =
            _update_nested_dict (dictSet base k (specDeepMerge bv v)) rest := by
          simp only [_update_nested_dict]
          rw [hm.1]
        have hihrest := ih rest (dictSet base k (specDeepMerge bv v))
          (by omega) hb1wf hrestWF
        refine ⟨?_, ?_⟩
        · rw [hstep, hihrest.1]
          have hfil : rest.filter
                (fun kv => (dictGet? (dictSet base k (specDeepMerge bv v))
                  kv.1).isNone) =
              rest.filter (fun kv => (dictGet? base kv.1).isNone) := by
            apply List.filter_congr
            intro kv hkv
            rw [dictGet?_dictSet_ne base k kv.1 _ (hkrest2 kv hkv)]
          rw [hfil, specMergeEntries_set_present base k bv v rest hbk
            hrestk hbnodup]
          simp [List.filter_cons, hbk]
        · rw [hstep]; exact hihrest.2

/-- Claim C6: loading a persisted (well-formed) user document returns
exactly the recursive merge the spec describes — every defaults key
absent from the user document is filled from the defaults, the user's
value wins for a key present in both, and nested mappings are merged
recursively rather than replaced. `specDeepMerge` is written from the
claim wording; `load_settings` embeds the source (`.copy()` followed by
`_update_nested_dict`), so the equality is the refinement. -/
theorem c6_load_is_deep_merge :
    ∀ (user : Obj), docWF (.obj user) = true →
      JValue.obj (load_settings (some (.ok user))) =
        specDeepMerge (.obj DEFAULT_SETTINGS) (.obj user) := by
  intro user hwf
  have h := merge_spec_fuel (objSize user + 1) user DEFAULT_SETTINGS
    (by omega) (by decide) hwf
  simp only [load_settings, specDeepMerge]
  rw [h.1]

/-- Witness for C6: a user document that removes most defaults, edits
`general.theme` and adds a novel top-level key. -/
theorem c6_load_is_deep_merge_witness :
    docWF (.obj [("general", JValue.obj [("theme", .prim (.s "dark"))]),
      ("extra", .prim (.i 1))]) = true ∧
    JValue.obj (load_settings (some (.ok
      [("general", JValue.obj [("theme", .prim (.s "dark"))]),
       ("extra", .prim (.i 1))]))) =
      specDeepMerge (.obj DEFAULT_SETTINGS)
        (.obj [("general", JValue.obj [("theme", .prim (.s "dark"))]),
          ("extra", .prim (.i 1))]) :=
  ⟨by decide, c6_load_is_deep_merge
    [("general", JValue.obj [("theme", .prim (.s "dark"))]),
     ("extra", .prim (.i 1))] (by decide)⟩

theorem getObj_of_objs_append (H : Heap) (l e : List HObj) (hH : H.objs = l ++ e)
    (a : Nat) (ha : a < l.length) : H.getObj a = Heap.getObj ⟨l⟩ a := by
  simp only [Heap.getObj, hH, List.getD_eq_getElem?_getD]
  rw [List.getElem?_append]
  simp [ha]

theorem getObj_concat (l : List HObj) (o : HObj) :
    Heap.getObj ⟨l ++ [o]⟩ l.length = o := by
  simp only [Heap.getObj, List.getD_eq_getElem?_getD]
  rw [List.getElem?_concat_length]
  rfl

theorem getObj_setObj_self (h : Heap) (a : Nat) (o : HObj)
    (ha : a < h.objs.length) : (h.setObj a o).getObj a = o := by
  simp only [Heap.setObj, Heap.getObj, List.getD_eq_getElem?_getD]
  rw [List.getElem?_set_self]
  · simp [ha]
  · exact ha

theorem getObj_setObj_ne (h : Heap) (a b : Nat) (o : HObj) (hab : a ≠ b) :
    (h.setObj a o).getObj b = h.getObj b := by
  simp only [Heap.setObj, Heap.getObj, List.getD_eq_getElem?_getD]
  rw [List.getElem?_set_ne hab]

theorem length_setObj (h : Heap) (a : Nat) (o : HObj) :
    (h.setObj a o).objs.length = h.objs.length := by
  simp [Heap.setObj]

mutual

theorem allocVal_ext : ∀ (v : JValue) (h : Heap),
    ∃ ext, (allocVal h v).1.objs = h.objs ++ ext
  | .prim sv, h => ⟨[], by simp [allocVal]⟩
  | .obj d, h => by
    obtain ⟨e1, he1⟩ := allocEntries_ext d h
    exact ⟨e1 ++ [(allocEntries h d).2], by
      simp only [allocVal, Heap.alloc]
      rw [he1, List.append_assoc]⟩

theorem allocEntries_ext : ∀ (d : Obj) (h : Heap),
    ∃ ext, (allocEntries h d).1.objs = h.objs ++ ext
  | [], h => ⟨[], by simp [allocEntries]⟩
  | (k, v) :: rest, h => by
    obtain ⟨e1, he1⟩ := allocVal_ext v h
    obtain ⟨e2, he2⟩ := allocEntries_ext rest (allocVal h v).1
    exact ⟨e1 ++ e2, by
      simp only [allocEntries]
      rw [he2, he1, List.append_assoc]⟩

end

theorem allocVal_le (v : JValue) (h : Heap) :
    h.objs.length ≤ (allocVal h v).1.objs.length := by
  obtain ⟨e, he⟩ := allocVal_ext v h
  simp [he]

theorem allocEntries_le (d : Obj) (h : Heap) :
    h.objs.length ≤ (allocEntries h d).1.objs.length := by
  obtain ⟨e, he⟩ := allocEntries_ext d h
  simp [he]

theorem allocVal_getObj (v : JValue) (h : Heap) (a : Nat)
    (ha : a < h.objs.length) : (allocVal h v).1.getObj a = h.getObj a := by
  obtain ⟨e, he⟩ := allocVal_ext v h
  exact getObj_of_objs_append _ _ _ he a ha

theorem allocEntries_getObj (d : Obj) (h : Heap) (a : Nat)
    (ha : a < h.objs.length) :
    (allocEntries h d).1.getObj a = h.getObj a := by
  obtain ⟨e, he⟩ := allocEntries_ext d h
  exact getObj_of_objs_append _ _ _ he a ha

theorem allocVal_obj_parts (d : Obj) (h : Heap) :
    allocVal h (.obj d) =
      (⟨(allocEntries h d).1.objs ++ [(allocEntries h d).2]⟩,
       .ref (allocEntries h d).1.objs.length) := by
  simp [allocVal, Heap.alloc]

theorem allocEntries_cons_parts (k : String) (v : JValue) (rest : Obj)
    (h : Heap) :
    allocEntries h ((k, v) :: rest) =
      ((allocEntries (allocVal h v).1 rest).1,
       (k, (allocVal h v).2) :: (allocEntries (allocVal h v).1 rest).2) := by
  simp [allocEntries]

mutual

theorem allocVal_read : ∀ (v : JValue) (h H : Heap) (rf : Nat),
    jvalSize v ≤ rf →
    (∀ a, h.objs.length ≤ a → a < (allocVal h v).1.objs.length →
      H.getObj a = (allocVal h v).1.getObj a) →
    derefGo rf H (allocVal h v).2 = v
  | .prim sv, h, H, rf, hrf, _ => by
    rcases rf with _ | rf
    · exact absurd hrf (by simp [jvalSize])
    · rfl
  | .obj d, h, H, rf, hrf, hagree => by
    rcases rf with _ | rf
    · exact absurd hrf (by simp [jvalSize])
    · simp only [jvalSize] at hrf
      rw [allocVal_obj_parts] at hagree ⊢
      have hlen : (Heap.mk ((allocEntries h d).1.objs ++
          [(allocEntries h d).2])).objs.length =
          (allocEntries h d).1.objs.length + 1 := by
        simp
      have hA : H.getObj (allocEntries h d).1.objs.length =
          (allocEntries h d).2 := by
        have h1 := hagree (allocEntries h d).1.objs.length
          (allocEntries_le d h) (by rw [hlen]; omega)
        rw [h1]
        exact getObj_concat _ _
      simp only [derefGo]
      rw [hA]
      have hrec := allocEntries_read d h H rf (by omega) ?_
      · rw [hrec]
      · intro a ha1 ha2
        have h2 := hagree a ha1 (by rw [hlen]; omega)
        rw [h2]
        exact getObj_of_objs_append _ _ _ rfl a ha2

theorem allocEntries_read : ∀ (d : Obj) (h H : Heap) (rf : Nat),
    objSize d ≤ rf →
    (∀ a, h.objs.length ≤ a → a < (allocEntries h d).1.objs.length →
      H.getObj a = (allocEntries h d).1.getObj a) →
    derefEntriesWith (derefGo rf H) (allocEntries h d).2 = d
  | [], h, H, rf, _, _ => rfl
  | (k, v) :: rest, h, H, rf, hrf, hagree => by
    rw [allocEntries_cons_parts] at hagree ⊢
    have hsz : jvalSize v ≤ rf ∧ objSize rest ≤ rf := by
      simp only [objSize] at hrf
      have := jvalSize_pos v
      constructor <;> omega
    have hhead := allocVal_read v h H rf hsz.1 ?_
    · have htail := allocEntries_read rest (allocVal h v).1 H rf hsz.2 ?_
      · simp only [derefEntriesWith]
        rw [hhead, htail]
      · intro a ha1 ha2
        exact hagree a (le_trans (allocVal_le v h) ha1) ha2
    · intro a ha1 ha2
      have ha3 : a < (allocEntries (allocVal h v).1 rest).1.objs.length :=
        lt_of_lt_of_le ha2 (allocEntries_le rest (allocVal h v).1)
      have h2 := hagree a ha1 ha3
      rw [h2]
      obtain ⟨e2, he2⟩ := allocEntries_ext rest (allocVal h v).1
      exact getObj_of_objs_append _ _ _ he2 a ha2

end

theorem contains_false_fst {α : Type} (d : List (String × α)) (k : String)
    (h : (d.map Prod.fst).contains k = false) : ∀ kv ∈ d, kv.1 ≠ k := by
  intro kv hkv heq
  have hmem : k ∈ d.map Prod.fst := heq ▸ List.mem_map_of_mem Prod.fst hkv
  have hc := (containsStr_iff (d.map Prod.fst) k).mpr hmem
  rw [h] at hc
  cases hc

theorem dictGetH?_dictSetH_ne (o : HObj) (k k' : String) (v : HVal)
    (h : k' ≠ k) : dictGetH? (dictSetH o k v) k' = dictGetH? o k' := by
  induction o with
  | nil =>
    simp only [dictSetH, dictGetH?]
    rw [if_neg (fun hh => h hh.symm)]
  | cons qw rest ih =>
    rcases qw with ⟨q, w⟩
    by_cases hq : q = k
    · subst hq
      simp only [dictSetH, if_pos rfl, dictGetH?]
      rw [if_neg (fun hh => h hh.symm), if_neg (fun hh => h hh.symm)]
    · simp only [dictSetH, if_neg hq, dictGetH?]
      by_cases hq' : q = k'
      · rw [if_pos hq', if_pos hq']
      · rw [if_neg hq', if_neg hq', ih]

theorem dictGetH?_no_ref (o : HObj)
    (hall : ∀ kv ∈ o, ∀ ba, kv.2 ≠ HVal.ref ba) :
    ∀ k ba, dictGetH? o k ≠ some (.ref ba) := by
  induction o with
  | nil => intro k ba h; simp [dictGetH?] at h
  | cons qw rest ih =>
    rcases qw with ⟨q, w⟩
    intro k ba h
    simp only [dictGetH?] at h
    by_cases hq : q = k
    · rw [if_pos hq] at h
      injection h with h
      exact hall (q, w) (List.mem_cons_self _ _) ba h
    · rw [if_neg hq] at h
      exact ih (fun kv hkv => hall kv (List.mem_cons_of_mem _ hkv)) k ba h

theorem allocEntries_keys : ∀ (d : Obj) (h : Heap),
    ((allocEntries h d).2).map Prod.fst = d.map Prod.fst := by
  intro d
  induction d with
  | nil => intro h; rfl
  | cons kv rest ih =>
    rcases kv with ⟨k, v⟩
    intro h
    rw [allocEntries_cons_parts]
    simp only [List.map_cons]
    rw [ih]

theorem derefEntriesWith_dictSetH (rd : HVal → JValue) :
    ∀ (o : HObj) (k : String) (hv : HVal),
      derefEntriesWith rd (dictSetH o k hv) =
        dictSet (derefEntriesWith rd o) k (rd hv) := by
  intro o
  induction o with
  | nil => intro k hv; rfl
  | cons qw rest ih =>
    rcases qw with ⟨q, w⟩
    intro k hv
    by_cases hq : q = k
    · simp only [dictSetH, if_pos hq, derefEntriesWith, dictSet, if_pos hq]
    · simp only [dictSetH, if_neg hq, derefEntriesWith, dictSet, if_neg hq]
      rw [ih]

theorem foldl_dictSetH_deref (rd : HVal → JValue) :
    ∀ (es : List (String × HVal)) (o : HObj),
      derefEntriesWith rd (es.foldl (fun o2 kv => dictSetH o2 kv.1 kv.2) o) =
        es.foldl (fun o2 kv => dictSet o2 kv.1 (rd kv.2))
          (derefEntriesWith rd o) := by
  intro es
  induction es with
  | nil => intro o; rfl
  | cons kv rest ih =>
    intro o
    simp only [List.foldl_cons]
    rw [ih, derefEntriesWith_dictSetH]

theorem foldl_dictSet_congr (rd : HVal → JValue) :
    ∀ (es : List (String × HVal)) (vo : Obj) (acc : Obj),
      derefEntriesWith rd es = vo →
      es.foldl (fun o kv => dictSet o kv.1 (rd kv.2)) acc =
        vo.foldl (fun o kv => dictSet o kv.1 kv.2) acc := by
  intro es
  induction es with
  | nil => intro vo acc h; rw [← h]; rfl
  | cons kv rest ih =>
    intro vo acc h
    rcases kv with ⟨k, hv⟩
    rw [← h]
    simp only [derefEntriesWith, List.foldl_cons]
    exact ih _ _ rfl

theorem updH_assign_loop (step : Heap → Nat → Nat → Heap) :
    ∀ (es : List (String × HVal)) (hc : Heap) (i : Nat),
      i < hc.objs.length →
      keysNodupB (es.map Prod.fst) = true →
      (∀ kv ∈ es, ∀ ba, dictGetH? (hc.getObj i) kv.1 ≠ some (.ref ba)) →
      (updHEntriesWith step hc i es).getObj i =
        es.foldl (fun o kv => dictSetH o kv.1 kv.2) (hc.getObj i) ∧
      (∀ a, a ≠ i → (updHEntriesWith step hc i es).getObj a = hc.getObj a) ∧
      (updHEntriesWith step hc i es).objs.length = hc.objs.length := by
  intro es
  induction es with
  | nil =>
    intro hc i _ _ _
    exact ⟨rfl, fun a _ => rfl, rfl⟩
  | cons kv rest ih =>
    rcases kv with ⟨k, hv⟩
    intro hc i hi hnodup hnoref
    simp only [List.map_cons, keysNodupB, Bool.and_eq_true,
      Bool.not_eq_true'] at hnodup
    obtain ⟨hkc, hnodup2⟩ := hnodup
    have hbranch : updHEntriesWith step hc i ((k, hv) :: rest) =
        updHEntriesWith step (hc.setObj i (dictSetH (hc.getObj i) k hv))
          i rest := by
      simp only [updHEntriesWith]
      rcases hg : dictGetH? (hc.getObj i) k with _ | hv2
      · rcases hv with sv | nb <;> rfl
      · rcases hv2 with sv | ba
        · rcases hv with sv2 | nb <;> rfl
        · exact absurd hg (hnoref (k, hv) (List.mem_cons_self _ _) ba)
    rw [hbranch]
    have hget1 : (hc.setObj i (dictSetH (hc.getObj i) k hv)).getObj i =
        dictSetH (hc.getObj i) k hv := getObj_setObj_self hc i _ hi
    have hih := ih (hc.setObj i (dictSetH (hc.getObj i) k hv)) i
      (by rw [length_setObj]; exact hi) hnodup2 ?_
    · refine ⟨?_, ?_, ?_⟩
      · rw [hih.1, hget1]
        simp only [List.foldl_cons]
      · intro a ha
        rw [hih.2.1 a ha, getObj_setObj_ne hc i a _ (fun hh => ha hh.symm)]
      · rw [hih.2.2, length_setObj]
    · intro kv2 hkv2 ba
      rw [hget1, dictGetH?_dictSetH_ne (hc.getObj i) k kv2.1 hv
        (contains_false_fst rest k hkc kv2 hkv2)]
      exact hnoref kv2 (List.mem_cons_of_mem _ hkv2) ba

theorem update_nested_all_assign :
    ∀ (uo so : Obj),
      keysNodupB (uo.map Prod.fst) = true →
      (∀ kv ∈ uo, ∀ bo, dictGet? so kv.1 ≠ some (.obj bo)) →
      _update_nested_dict so uo =
        uo.foldl (fun o kv => dictSet o kv.1 kv.2) so := by
  intro uo
  induction uo with
  | nil => intro so _ _; rfl
  | cons kv rest ih =>
    rcases kv with ⟨k, v⟩
    intro so hnodup hnoobj
    simp only [List.map_cons, keysNodupB, Bool.and_eq_true,
      Bool.not_eq_true'] at hnodup
    obtain ⟨hkc, hnodup2⟩ := hnodup
    have hupd : updateEntry so k v = dictSet so k v := by
      rcases v with sv | no
      · rfl
      · simp only [updateEntry]
        rcases hg : dictGet? so k with _ | bv
        · rfl
        · rcases bv with sv2 | bo
          · rfl
          · exact absurd hg (hnoobj (k, .obj no) (List.mem_cons_self _ _) bo)
    simp only [_update_nested_dict, List.foldl_cons]
    rw [hupd]
    refine ih (dictSet so k v) hnodup2 ?_
    intro kv2 hkv2 bo
    rw [dictGet?_dictSet_ne so k kv2.1 v
      (contains_false_fst rest k hkc kv2 hkv2)]
    exact hnoobj kv2 (List.mem_cons_of_mem _ hkv2) bo

/-! ### The concrete import-time layout for the frame-effect claim

`DEFAULT_SETTINGS` is materialized at import into a fixed store: the five
section dicts at addresses 0-4 (children before parent) and the top-level
defaults dict at address 5; a user document parsed by `json.load` then
occupies fresh addresses from 6 on, and `DEFAULT_SETTINGS.copy()` is one
more fresh top-level dict sharing the section addresses 0-4. -/

/-- The store as it stands after `DEFAULT_SETTINGS` is materialized. -/
def h6 : Heap := (allocVal ⟨[]⟩ (.obj DEFAULT_SETTINGS)).1

/-- The top-level `DEFAULT_SETTINGS` dict object: five section refs. -/
def defaultsTopH : HObj :=
  [("general", .ref 0), ("hotkeys", .ref 1), ("speech_recognition", .ref 2),
   ("ui", .ref 3), ("advanced", .ref 4)]

/-- The section name stored at each of the shared addresses 0-4. -/
def sectionName : Nat → String
  | 0 => "general"
  | 1 => "hotkeys"
  | 2 => "speech_recognition"
  | 3 => "ui"
  | _ => "advanced"

/-- The document value of the section at each shared address. -/
def sectV (j : Nat) : Obj :=
  match dictGet? DEFAULT_SETTINGS (sectionName j) with
  | some (.obj so) => so
  | _ => []

/-- The store and top dict object of the freshly parsed user document. -/
def peF (user : Obj) : Heap × HObj := allocEntries h6 user

/-- The address of the user document's top-level dict. -/
def uAF (user : Obj) : Nat := (peF user).1.objs.length

/-- The store once the user top-level dict is allocated. -/
def p1F (user : Obj) : Heap := ⟨(peF user).1.objs ++ [(peF user).2]⟩

/-- The address of `merged_settings = DEFAULT_SETTINGS.copy()`. -/
def cAF (user : Obj) : Nat := (p1F user).objs.length

/-- The store once the shallow copy is allocated. -/
def p2F (user : Obj) : Heap := ⟨(p1F user).objs ++ [(p1F user).getObj 5]⟩

/-- `load_settingsH` decomposed into the layout above. -/
theorem load_settingsH_eq (user : Obj) :
    load_settingsH user =
      (updateNestedH (jvalSize (.obj user) + 1) (p2F user) (cAF user)
        (uAF user), cAF user, 5) := rfl

theorem no_ref_of_all (o : HObj)
    (h : o.all (fun kv => match kv.2 with
        | HVal.ref _ => false | _ => true) = true) :
    ∀ kv ∈ o, ∀ ba, kv.2 ≠ HVal.ref ba := by
  intro kv hkv ba heq
  have h2 := List.all_eq_true.mp h kv hkv
  rw [heq] at h2
  simp at h2

theorem dictGet?_no_obj (so : Obj)
    (hall : ∀ kv ∈ so, ∀ bo, kv.2 ≠ JValue.obj bo) :
    ∀ k bo, dictGet? so k ≠ some (.obj bo) := by
  induction so with
  | nil => intro k bo h; simp [dictGet?] at h
  | cons qw rest ih =>
    rcases qw with ⟨q, w⟩
    intro k bo h
    simp only [dictGet?] at h
    by_cases hq : q = k
    · rw [if_pos hq] at h
      injection h with h
      exact hall (q, w) (List.mem_cons_self _ _) bo h
    · rw [if_neg hq] at h
      exact ih (fun kv hkv => hall kv (List.mem_cons_of_mem _ hkv)) k bo h

theorem no_obj_of_all (so : Obj)
    (h : so.all (fun kv => match kv.2 with
        | JValue.obj _ => false | _ => true) = true) :
    ∀ kv ∈ so, ∀ bo, kv.2 ≠ JValue.obj bo := by
  intro kv hkv bo heq
  have h2 := List.all_eq_true.mp h kv hkv
  rw [heq] at h2
  simp at h2

theorem dictGet?_some_mem (d : Obj) (k : String) (v : JValue)
    (h : dictGet? d k = some v) : k ∈ d.map Prod.fst := by
  induction d with
  | nil => simp [dictGet?] at h
  | cons qw rest ih =>
    rcases qw with ⟨q, w⟩
    simp only [dictGet?] at h
    by_cases hq : q = k
    · subst hq; exact List.mem_cons_self _ _
    · rw [if_neg hq] at h
      exact List.mem_cons_of_mem _ (ih h)

theorem dictGet?_size_le (d : Obj) (k : String) (v : JValue)
    (h : dictGet? d k = some v) : jvalSize v ≤ objSize d := by
  induction d with
  | nil => simp [dictGet?] at h
  | cons qw rest ih =>
    rcases qw with ⟨q, w⟩
    simp only [dictGet?] at h
    simp only [objSize]
    by_cases hq : q = k
    · rw [if_pos hq] at h
      injection h with h
      rw [← h]
      omega
    · rw [if_neg hq] at h
      have := ih h
      omega

theorem h6_len : h6.objs.length = 6 := by decide

theorem h6_getObj_5 : h6.getObj 5 = defaultsTopH := by decide

theorem sectionName_inj : ∀ j j', j < 5 → j' < 5 →
    sectionName j = sectionName j' → j = j' := by
  intro j j' hj hj' h
  interval_cases j <;> interval_cases j' <;> simp [sectionName] at h ⊢

theorem defaultsTopH_lookup (j : Nat) (hj : j < 5) :
    dictGetH? defaultsTopH (sectionName j) = some (.ref j) := by
  interval_cases j <;> rfl

theorem sectH_no_ref (j : Nat) (hj : j < 5) :
    ∀ kv ∈ h6.getObj j, ∀ ba, kv.2 ≠ HVal.ref ba := by
  interval_cases j <;> exact no_ref_of_all _ (by decide)

theorem sectV_no_obj (j : Nat) (hj : j < 5) :
    ∀ k bo, dictGet? (sectV j) k ≠ some (.obj bo) := by
  interval_cases j <;> exact dictGet?_no_obj _ (no_obj_of_all _ (by decide))

theorem sectH_read (j : Nat) (hj : j < 5) (R : Heap) (rf : Nat) :
    derefEntriesWith (derefGo (rf + 1) R) (h6.getObj j) = sectV j := by
  interval_cases j <;> rfl

theorem topLoop (user : Obj) (F : Nat) (hF : 1 ≤ F) :
    ∀ (us : Obj) (hs hc : Heap),
      (∃ e0, hs.objs = h6.objs ++ e0) →
      (∃ e1, (p1F user).objs = (allocEntries hs us).1.objs ++ e1) →
      keysNodupB (us.map Prod.fst) = true →
      docWFEntries us = true →
      (∀ a, 6 ≤ a → a < (p1F user).objs.length →
        hc.getObj a = (p1F user).getObj a) →
      hc.getObj 5 = defaultsTopH →
      (∀ kv ∈ us, dictGetH? (hc.getObj (cAF user)) kv.1 =
        dictGetH? defaultsTopH kv.1) →
      (∀ j, j < 5 → sectionName j ∈ us.map Prod.fst →
        hc.getObj j = h6.getObj j) →
      cAF user < hc.objs.length →
      ((∀ a, 6 ≤ a → a < (p1F user).objs.length →
        (updHEntriesWith (updateNestedH F) hc (cAF user)
          (allocEntries hs us).2).getObj a = hc.getObj a) ∧
       (updHEntriesWith (updateNestedH F) hc (cAF user)
          (allocEntries hs us).2).getObj 5 = defaultsTopH ∧
       (∀ j, j < 5 →
        (∀ uo, dictGet? us (sectionName j) ≠ some (.obj uo)) →
        (updHEntriesWith (updateNestedH F) hc (cAF user)
          (allocEntries hs us).2).getObj j = hc.getObj j) ∧
       (∀ j, j < 5 → ∀ uo, dictGet? us (sectionName j) = some (.obj uo) →
        ∀ rf, jvalSize (.obj uo) ≤ rf →
        derefEntriesWith (derefGo rf
            (updHEntriesWith (updateNestedH F) hc (cAF user)
              (allocEntries hs us).2))
          ((updHEntriesWith (updateNestedH F) hc (cAF user)
            (allocEntries hs us).2).getObj j) =
          _update_nested_dict (sectV j) uo)) := by
  have hcAdef : cAF user = (p1F user).objs.length := rfl
  have hcA7 : 7 ≤ cAF user := by
    have h1 : 6 ≤ (peF user).1.objs.length := by
      have h2 := allocEntries_le user h6
      rw [h6_len] at h2
      exact h2
    rw [hcAdef]
    simp only [p1F, List.length_append, List.length_cons, List.length_nil]
    omega
  intro us
  induction us with
  | nil =>
    intro hs hc _ _ _ _ _ hB2 _ _ _
    exact ⟨fun a _ _ => rfl, hB2, fun j _ _ => rfl,
      fun j _ uo huo => by simp [dictGet?] at huo⟩
  | cons sv rest ih =>
    rcases sv with ⟨s, v⟩
    intro hs hc hA1 hA2 hnodup hwfe hB1 hB2 hB3 hB4 hcAlt
    simp only [List.map_cons, keysNodupB, Bool.and_eq_true,
      Bool.not_eq_true'] at hnodup
    obtain ⟨hscont, hnodup2⟩ := hnodup
    simp only [docWFEntries, Bool.and_eq_true] at hwfe
    obtain ⟨hvwf, hwfe2⟩ := hwfe
    have hsrest : ∀ kv ∈ rest, kv.1 ≠ s := contains_false_fst rest s hscont
    have hrestnone : dictGet? rest s = none :=
      dictGet?_eq_none_of_forall rest s hsrest
    have hB3head := hB3 (s, v) (List.mem_cons_self _ _)
    rw [allocEntries_cons_parts] at hA2 ⊢
    rcases v with sv | vo
    · -- a scalar user value: it is assigned into the copy dict only
      have hstep1 : updHEntriesWith (updateNestedH F) hc (cAF user)
          ((s, (allocVal hs (.prim sv)).2) ::
            (allocEntries (allocVal hs (.prim sv)).1 rest).2) =
          updHEntriesWith (updateNestedH F)
            (hc.setObj (cAF user)
              (dictSetH (hc.getObj (cAF user)) s (.prim sv)))
            (cAF user) (allocEntries (allocVal hs (.prim sv)).1 rest).2 := by
        simp only [updHEntriesWith, allocVal]
        rcases hg : dictGetH? (hc.getObj (cAF user)) s with _ | lv2
        · rfl
        · rcases lv2 with sv2 | ba <;> rfl
      rw [hstep1]
      have hgetK : (hc.setObj (cAF user)
          (dictSetH (hc.getObj (cAF user)) s (.prim sv))).getObj
            (cAF user) = dictSetH (hc.getObj (cAF user)) s (.prim sv) :=
        getObj_setObj_self hc _ _ hcAlt
      have hIH := ih (allocVal hs (.prim sv)).1
        (hc.setObj (cAF user) (dictSetH (hc.getObj (cAF user)) s (.prim sv)))
        (by
          obtain ⟨e0, he0⟩ := hA1
          obtain ⟨e2, he2⟩ := allocVal_ext (.prim sv) hs
          exact ⟨e0 ++ e2, by rw [he2, he0, List.append_assoc]⟩)
        hA2 hnodup2 hwfe2
        (fun a ha6 halt => by
          rw [getObj_setObj_ne hc (cAF user) a _ (by omega)]
          exact hB1 a ha6 halt)
        (by
          rw [getObj_setObj_ne hc (cAF user) 5 _ (by omega)]
          exact hB2)
        (fun kv hkv => by
          rw [hgetK, dictGetH?_dictSetH_ne _ s kv.1 _ (hsrest kv hkv)]
          exact hB3 kv (List.mem_cons_of_mem _ hkv))
        (fun j hj hmem => by
          rw [getObj_setObj_ne hc (cAF user) j _ (by omega)]
          exact hB4 j hj (List.mem_cons_of_mem _ hmem))
        (by rw [length_setObj]; exact hcAlt)
      have hlkname : ∀ j, j < 5 → s ≠ sectionName j → ∀ uo,
          (dictGet? ((s, JValue.prim sv) :: rest) (sectionName j) =
            some (.obj uo)) ↔
            dictGet? rest (sectionName j) = some (.obj uo) := by
        intro j hj hne uo
        simp only [dictGet?]
        rw [if_neg hne]
      refine ⟨?_, hIH.2.1, ?_, ?_⟩
      · intro a ha6 halt
        rw [hIH.1 a ha6 halt, getObj_setObj_ne hc (cAF user) a _ (by omega)]
      · intro j hj hno
        by_cases hsj : s = sectionName j
        · have hno2 : ∀ uo, dictGet? rest (sectionName j) ≠
              some (.obj uo) := by
            rw [← hsj, hrestnone]
            intro uo h
            cases h
          rw [hIH.2.2.1 j hj hno2,
            getObj_setObj_ne hc (cAF user) j _ (by omega)]
        · have hno2 : ∀ uo, dictGet? rest (sectionName j) ≠
              some (.obj uo) := by
            intro uo h
            exact hno uo ((hlkname j hj hsj uo).mpr h)
          rw [hIH.2.2.1 j hj hno2,
            getObj_setObj_ne hc (cAF user) j _ (by omega)]
      · intro j hj uo huo rf hrf
        by_cases hsj : s = sectionName j
        · exfalso
          rw [← hsj] at huo
          simp [dictGet?] at huo
        · exact hIH.2.2.2 j hj uo ((hlkname j hj hsj uo).mp huo) rf hrf
    · -- a dict user value
      rw [allocVal_obj_parts] at hA2 ⊢
      dsimp only at hA2 ⊢
      rcases hdlook : dictGetH? defaultsTopH s with _ | dlv
      · -- not a section name: the ref is assigned into the copy dict only
        have hlk : dictGetH? (hc.getObj (cAF user)) s = none :=
          hB3head.trans hdlook
        have hsnotsect : ∀ j, j < 5 → s ≠ sectionName j := by
          intro j hj hh
          rw [hh, defaultsTopH_lookup j hj] at hdlook
          cases hdlook
        have hstep1 : updHEntriesWith (updateNestedH F) hc (cAF user)
            ((s, HVal.ref (allocEntries hs vo).1.objs.length) ::
              (allocEntries
                ⟨(allocEntries hs vo).1.objs ++ [(allocEntries hs vo).2]⟩
                rest).2) =
            updHEntriesWith (updateNestedH F)
              (hc.setObj (cAF user)
                (dictSetH (hc.getObj (cAF user)) s
                  (HVal.ref (allocEntries hs vo).1.objs.length)))
              (cAF user)
              (allocEntries
                ⟨(allocEntries hs vo).1.objs ++ [(allocEntries hs vo).2]⟩
                rest).2 := by
          simp only [updHEntriesWith]
          rw [hlk]
        rw [hstep1]
        have hgetK : (hc.setObj (cAF user)
            (dictSetH (hc.getObj (cAF user)) s
              (HVal.ref (allocEntries hs vo).1.objs.length))).getObj
              (cAF user) =
            dictSetH (hc.getObj (cAF user)) s
              (HVal.ref (allocEntries hs vo).1.objs.length) :=
          getObj_setObj_self hc _ _ hcAlt
        have hIH := ih
          ⟨(allocEntries hs vo).1.objs ++ [(allocEntries hs vo).2]⟩
          (hc.setObj (cAF user)
            (dictSetH (hc.getObj (cAF user)) s
              (HVal.ref (allocEntries hs vo).1.objs.length)))
          (by
            obtain ⟨e0, he0⟩ := hA1
            obtain ⟨e2, he2⟩ := allocEntries_ext vo hs
            exact ⟨e0 ++ (e2 ++ [(allocEntries hs vo).2]), by
              simp only [he2, he0, List.append_assoc]⟩)
          hA2 hnodup2 hwfe2
          (fun a ha6 halt => by
            rw [getObj_setObj_ne hc (cAF user) a _ (by omega)]
            exact hB1 a ha6 halt)
          (by
            rw [getObj_setObj_ne hc (cAF user) 5 _ (by omega)]
            exact hB2)
          (fun kv hkv => by
            rw [hgetK, dictGetH?_dictSetH_ne _ s kv.1 _ (hsrest kv hkv)]
            exact hB3 kv (List.mem_cons_of_mem _ hkv))
          (fun j hj hmem => by
            rw [getObj_setObj_ne hc (cAF user) j _ (by omega)]
            exact hB4 j hj (List.mem_cons_of_mem _ hmem))
          (by rw [length_setObj]; exact hcAlt)
        have hlkname : ∀ j, j < 5 → ∀ uo,
            (dictGet? ((s, JValue.obj vo) :: rest) (sectionName j) =
              some (.obj uo)) ↔
              dictGet? rest (sectionName j) = some (.obj uo) := by
          intro j hj uo
          simp only [dictGet?]
          rw [if_neg (hsnotsect j hj)]
        refine ⟨?_, hIH.2.1, ?_, ?_⟩
        · intro a ha6 halt
          rw [hIH.1 a ha6 halt, getObj_setObj_ne hc (cAF user) a _ (by omega)]
        · intro j hj hno
          have hno2 : ∀ uo, dictGet? rest (sectionName j) ≠
              some (.obj uo) := by
            intro uo h
            exact hno uo ((hlkname j hj uo).mpr h)
          rw [hIH.2.2.1 j hj hno2,
            getObj_setObj_ne hc (cAF user) j _ (by omega)]
        · intro j hj uo huo rf hrf
          exact hIH.2.2.2 j hj uo ((hlkname j hj uo).mp huo) rf hrf
      · -- a section name: the shared section dict is merged in place
        have hsect : ∃ i, i < 5 ∧ s = sectionName i ∧ dlv = HVal.ref i := by
          simp only [defaultsTopH, dictGetH?] at hdlook
          split_ifs at hdlook with h0 h1 h2 h3 h4
          · exact ⟨0, by omega, h0.symm, by injection hdlook with h; rw [← h]⟩
          · exact ⟨1, by omega, h1.symm, by injection hdlook with h; rw [← h]⟩
          · exact ⟨2, by omega, h2.symm, by injection hdlook with h; rw [← h]⟩
          · exact ⟨3, by omega, h3.symm, by injection hdlook with h; rw [← h]⟩
          · exact ⟨4, by omega, h4.symm, by injection hdlook with h; rw [← h]⟩
        obtain ⟨i, hi, hsname, hdlv⟩ := hsect
        subst hdlv
        have hlk : dictGetH? (hc.getObj (cAF user)) s = some (.ref i) :=
          hB3head.trans hdlook
        have hstep1 : updHEntriesWith (updateNestedH F) hc (cAF user)
            ((s, HVal.ref (allocEntries hs vo).1.objs.length) ::
              (allocEntries
                ⟨(allocEntries hs vo).1.objs ++ [(allocEntries hs vo).2]⟩
                rest).2) =
            updHEntriesWith (updateNestedH F)
              (updateNestedH F hc i (allocEntries hs vo).1.objs.length)
              (cAF user)
              (allocEntries
                ⟨(allocEntries hs vo).1.objs ++ [(allocEntries hs vo).2]⟩
                rest).2 := by
          simp only [updHEntriesWith]
          rw [hlk]
        rw [hstep1]
        obtain ⟨F2, hF2⟩ : ∃ F2, F = F2 + 1 := ⟨F - 1, by omega⟩
        have hs6 : 6 ≤ hs.objs.length := by
          obtain ⟨e0, he0⟩ := hA1
          rw [he0]
          simp only [List.length_append]
          rw [h6_len]
          omega
        have hnble : hs.objs.length ≤ (allocEntries hs vo).1.objs.length :=
          allocEntries_le vo hs
        have hnblt : (allocEntries hs vo).1.objs.length <
            (p1F user).objs.length := by
          obtain ⟨e1, he1⟩ := hA2
          obtain ⟨e2, he2⟩ := allocEntries_ext rest
            ⟨(allocEntries hs vo).1.objs ++ [(allocEntries hs vo).2]⟩
          rw [he1, he2]
          simp only [List.length_append, List.length_cons, List.length_nil]
          omega
        have hp1chain : ∃ e3, (p1F user).objs =
            (allocEntries hs vo).1.objs ++ e3 := by
          obtain ⟨e1, he1⟩ := hA2
          obtain ⟨e2, he2⟩ := allocEntries_ext rest
            ⟨(allocEntries hs vo).1.objs ++ [(allocEntries hs vo).2]⟩
          exact ⟨([(allocEntries hs vo).2] ++ e2) ++ e1, by
            rw [he1, he2]
            simp only [List.append_assoc]⟩
        have hgetnb : hc.getObj (allocEntries hs vo).1.objs.length =
            (allocEntries hs vo).2 := by
          rw [hB1 _ (le_trans hs6 hnble) hnblt]
          obtain ⟨e1, he1⟩ := hA2
          obtain ⟨e2, he2⟩ := allocEntries_ext rest
            ⟨(allocEntries hs vo).1.objs ++ [(allocEntries hs vo).2]⟩
          have he4 : (p1F user).objs =
              ((allocEntries hs vo).1.objs ++ [(allocEntries hs vo).2]) ++
                (e2 ++ e1) := by
            rw [he1, he2, List.append_assoc]
          rw [getObj_of_objs_append (p1F user)
            ((allocEntries hs vo).1.objs ++ [(allocEntries hs vo).2])
            (e2 ++ e1) he4 _ (by
              simp only [List.length_append, List.length_cons,
                List.length_nil]
              omega)]
          exact getObj_concat _ _
        have hukeys : keysNodupB (vo.map Prod.fst) = true := by
          have h2 := hvwf
          simp only [docWF, Bool.and_eq_true] at h2
          exact h2.1
        have hinnerkeys : keysNodupB
            (((allocEntries hs vo).2).map Prod.fst) = true := by
          rw [allocEntries_keys]
          exact hukeys
        have hgetI : hc.getObj i = h6.getObj i := by
          refine hB4 i hi ?_
          rw [← hsname]
          exact List.mem_cons_self _ _
        have hinner := updH_assign_loop (updateNestedH F2)
          (allocEntries hs vo).2 hc i (by omega) hinnerkeys
          (fun kv _ ba => by
            rw [hgetI]
            exact dictGetH?_no_ref _ (sectH_no_ref i hi) kv.1 ba)
        have hstep2 : updateNestedH F hc i
            (allocEntries hs vo).1.objs.length =
            updHEntriesWith (updateNestedH F2) hc i
              (allocEntries hs vo).2 := by
          rw [hF2]
          simp only [updateNestedH]
          rw [hgetnb]
        rw [hstep2]
        have hIH := ih
          ⟨(allocEntries hs vo).1.objs ++ [(allocEntries hs vo).2]⟩
          (updHEntriesWith (updateNestedH F2) hc i (allocEntries hs vo).2)
          (by
            obtain ⟨e0, he0⟩ := hA1
            obtain ⟨e2, he2⟩ := allocEntries_ext vo hs
            exact ⟨e0 ++ (e2 ++ [(allocEntries hs vo).2]), by
              simp only [he2, he0, List.append_assoc]⟩)
          hA2 hnodup2 hwfe2
          (fun a ha6 halt => by
            rw [hinner.2.1 a (by omega)]
            exact hB1 a ha6 halt)
          (by
            rw [hinner.2.1 5 (by omega)]
            exact hB2)
          (fun kv hkv => by
            rw [hinner.2.1 (cAF user) (by omega)]
            exact hB3 kv (List.mem_cons_of_mem _ hkv))
          (fun j hj hmem => by
            have hji : j ≠ i := by
              intro hh
              subst hh
              rw [← hsname] at hmem
              have h3 := (containsStr_iff (rest.map Prod.fst) s).mpr hmem
              rw [hscont] at h3
              cases h3
            rw [hinner.2.1 j hji]
            exact hB4 j hj (List.mem_cons_of_mem _ hmem))
          (by rw [hinner.2.2]; exact hcAlt)
        have hlkname : ∀ j, j < 5 → j ≠ i → ∀ uo,
            (dictGet? ((s, JValue.obj vo) :: rest) (sectionName j) =
              some (.obj uo)) ↔
              dictGet? rest (sectionName j) = some (.obj uo) := by
          intro j hj hji uo
          have hne : s ≠ sectionName j :=
            fun hh => hji (sectionName_inj j i hj hi (hh.symm.trans hsname))
          simp only [dictGet?]
          rw [if_neg hne]
        refine ⟨?_, hIH.2.1, ?_, ?_⟩
        · intro a ha6 halt
          rw [hIH.1 a ha6 halt, hinner.2.1 a (by omega)]
        · intro j hj hno
          have hji : j ≠ i := by
            intro hh
            subst hh
            refine hno vo ?_
            rw [← hsname]
            simp [dictGet?]
          have hno2 : ∀ uo, dictGet? rest (sectionName j) ≠
              some (.obj uo) := by
            intro uo h
            exact hno uo ((hlkname j hj hji uo).mpr h)
          rw [hIH.2.2.1 j hj hno2, hinner.2.1 j hji]
        · intro j hj uo huo rf hrf
          by_cases hji : j = i
          · subst hji
            have huovo : uo = vo := by
              rw [← hsname] at huo
              simp only [dictGet?, if_pos rfl] at huo
              injection huo with h
              injection h with h
              exact h.symm

            subst huovo
            have hnoI : ∀ uo2, dictGet? rest (sectionName j) ≠
                some (.obj uo2) := by
              rw [← hsname, hrestnone]
              intro uo2 h
              cases h
            have hRI := hIH.2.2.1 j hj hnoI
            rw [hRI, hinner.1, hgetI]
            obtain ⟨rf2, hrf2⟩ : ∃ rf2, rf = rf2 + 1 := by
              have h4 := jvalSize_pos (JValue.obj uo)
              exact ⟨rf - 1, by omega⟩
            rw [foldl_dictSetH_deref, hrf2, sectH_read j hj]
            rw [update_nested_all_assign uo (sectV j) hukeys
              (fun kv _ bo => sectV_no_obj j hj kv.1 bo)]
            refine foldl_dictSet_congr _ _ _ _
              (allocEntries_read uo hs _ (rf2 + 1)
                (by simp only [jvalSize] at hrf; omega) ?_)
            intro a ha1 ha2
            rw [hIH.1 a (by omega) (by omega), hinner.2.1 a (by omega),
              hB1 a (by omega) (by omega)]
            obtain ⟨e3, he3⟩ := hp1chain
            rw [getObj_of_objs_append (p1F user)
              (allocEntries hs uo).1.objs e3 he3 a ha2]
          · exact hIH.2.2.2 j hj uo ((hlkname j hj hji uo).mp huo) rf hrf

/-- Claim C10: `merged_settings = DEFAULT_SETTINGS.copy()` copies only the
top-level dict, so `_update_nested_dict` mutates the shared section dicts
of the module-level `DEFAULT_SETTINGS` in place: after a load of any
well-formed user document, the defaults observed by every subsequent
`load_settings`/`reset_settings` equal the original defaults with every
section the user overrode replaced by the merge of that section with the
user's section — the user's overridden values persist inside the
compiled-in defaults. The second conjunct exhibits the divergence: after
loading a document that sets `general.theme` to `dark`, the defaults no
longer equal the original `DEFAULT_SETTINGS`. -/
theorem c10_shallow_copy_mutates_defaults :
    ∀ (user : Obj), docWF (.obj user) = true →
      (defaults_after_load user =
        .obj (DEFAULT_SETTINGS.map (fun sd =>
          (sd.1, match dictGet? user sd.1, sd.2 with
                 | some (.obj uo), .obj so =>
                   JValue.obj (_update_nested_dict so uo)
                 | _, _ => sd.2))) ∧
       defaults_after_load
           [("general", JValue.obj [("theme", JValue.prim (.s "dark"))])] ≠
         .obj DEFAULT_SETTINGS) := by
  intro user huser
  simp only [docWF, Bool.and_eq_true] at huser
  obtain ⟨hnodup, hentries⟩ := huser
  have huA6 : 6 ≤ uAF user := by
    have h2 := allocEntries_le user h6
    rw [h6_len] at h2
    exact h2
  have hp1len : (p1F user).objs.length = uAF user + 1 := by
    simp only [p1F, uAF, List.length_append, List.length_cons,
      List.length_nil]
  have hp2len : (p2F user).objs.length = (p1F user).objs.length + 1 := by
    simp only [p2F, List.length_append, List.length_cons, List.length_nil]
  have hcAeq : cAF user = (p1F user).objs.length := rfl
  have hB1 : ∀ a, 6 ≤ a → a < (p1F user).objs.length →
      (p2F user).getObj a = (p1F user).getObj a := by
    intro a _ halt
    exact getObj_of_objs_append (p2F user) (p1F user).objs
      [(p1F user).getObj 5] rfl a halt
  have hp1get5 : (p1F user).getObj 5 = defaultsTopH := by
    have h1 := getObj_of_objs_append (p1F user) (peF user).1.objs
      [(peF user).2] rfl 5 (by
        have : uAF user = (peF user).1.objs.length := rfl
        omega)
    rw [h1]
    have h2 : (allocEntries h6 user).1.getObj 5 = h6.getObj 5 :=
      allocEntries_getObj user h6 5 (by rw [h6_len]; omega)
    exact h2.trans h6_getObj_5
  have hB2 : (p2F user).getObj 5 = defaultsTopH := by
    have h1 := getObj_of_objs_append (p2F user) (p1F user).objs
      [(p1F user).getObj 5] rfl 5 (by omega)
    rw [h1]
    exact hp1get5
  have hcopy : (p2F user).getObj (cAF user) = defaultsTopH := by
    have h1 := getObj_concat (p1F user).objs ((p1F user).getObj 5)
    exact h1.trans hp1get5
  have hB3 : ∀ kv ∈ user, dictGetH? ((p2F user).getObj (cAF user)) kv.1 =
      dictGetH? defaultsTopH kv.1 := by
    intro kv _
    rw [hcopy]
  have hB4 : ∀ j, j < 5 → (p2F user).getObj j = h6.getObj j := by
    intro j hj
    have h1 := getObj_of_objs_append (p2F user) (p1F user).objs
      [(p1F user).getObj 5] rfl j (by omega)
    have h2 := getObj_of_objs_append (p1F user) (peF user).1.objs
      [(peF user).2] rfl j (by
        have : uAF user = (peF user).1.objs.length := rfl
        omega)
    have h3 : (allocEntries h6 user).1.getObj j = h6.getObj j :=
      allocEntries_getObj user h6 j (by rw [h6_len]; omega)
    exact h1.trans (h2.trans h3)
  have hcAlt : cAF user < (p2F user).objs.length := by omega
  have htop := topLoop user (jvalSize (.obj user)) (jvalSize_pos _) user h6
    (p2F user) ⟨[], by simp⟩ ⟨[(peF user).2], rfl⟩ hnodup hentries hB1 hB2
    hB3 (fun j hj _ => hB4 j hj) hcAlt
  have hrun : updateNestedH (jvalSize (.obj user) + 1) (p2F user)
      (cAF user) (uAF user) =
      updHEntriesWith (updateNestedH (jvalSize (.obj user))) (p2F user)
        (cAF user) (allocEntries h6 user).2 := by
    simp only [updateNestedH]
    have hu : (p2F user).getObj (uAF user) = (peF user).2 := by
      have h1 := getObj_of_objs_append (p2F user) (p1F user).objs
        [(p1F user).getObj 5] rfl (uAF user) (by omega)
      rw [h1]
      exact getObj_concat (peF user).1.objs (peF user).2
    rw [hu]
    rfl
  have hTF : jvalSize (.obj user) + jvalSize (.obj DEFAULT_SETTINGS) =
      (jvalSize (.obj user) + 34) + 1 := by
    have h1 : jvalSize (.obj DEFAULT_SETTINGS) = 35 := by decide
    omega
  have hJdef : jvalSize (JValue.obj user) = 1 + objSize user := rfl
  have hsec : ∀ j, j < 5 →
      derefGo (jvalSize (.obj user) + 34)
        (updHEntriesWith (updateNestedH (jvalSize (.obj user))) (p2F user)
          (cAF user) (allocEntries h6 user).2) (.ref j) =
      (match dictGet? user (sectionName j) with
       | some (.obj uo) => JValue.obj (_update_nested_dict (sectV j) uo)
       | _ => JValue.obj (sectV j)) := by
    intro j hj
    have hJ1 : jvalSize (.obj user) + 34 = (jvalSize (.obj user) + 33) + 1 :=
      by omega
    have hJ2 : jvalSize (.obj user) + 33 = (jvalSize (.obj user) + 32) + 1 :=
      by omega
    rcases hu : dictGet? user (sectionName j) with _ | uv
    · have hno : ∀ uo, dictGet? user (sectionName j) ≠ some (.obj uo) := by
        rw [hu]
        intro uo h
        cases h
      rw [hJ1]
      simp only [derefGo]
      rw [htop.2.2.1 j hj hno, hB4 j hj, hJ2, sectH_read j hj]
    · rcases uv with usv | uo
      · have hno : ∀ uo, dictGet? user (sectionName j) ≠ some (.obj uo) := by
          rw [hu]
          intro uo h
          injection h with h
          cases h
        rw [hJ1]
        simp only [derefGo]
        rw [htop.2.2.1 j hj hno, hB4 j hj, hJ2, sectH_read j hj]
      · rw [hJ1]
        simp only [derefGo]
        refine congrArg JValue.obj
          (htop.2.2.2 j hj uo hu (jvalSize (.obj user) + 33) ?_)
        have h4 := dictGet?_size_le user _ _ hu
        simp only [jvalSize] at h4 ⊢
        omega
  refine ⟨?_, by decide⟩
  simp only [defaults_after_load]
  rw [load_settingsH_eq]
  dsimp only
  rw [hrun, hTF]
  simp only [derefGo]
  rw [htop.2.1]
  simp only [defaultsTopH, derefEntriesWith, DEFAULT_SETTINGS, List.map_cons,
    List.map_nil]
  refine congrArg JValue.obj ?_
  refine List.cons_eq_cons.mpr ⟨congrArg _ ?_, ?_⟩
  · rw [hsec 0 (by omega)]
    simp only [sectionName]
    rcases hu : dictGet? user "general" with _ | uv
    · rfl
    · rcases uv with usv | uo <;> rfl
  refine List.cons_eq_cons.mpr ⟨congrArg _ ?_, ?_⟩
  · rw [hsec 1 (by omega)]
    simp only [sectionName]
    rcases hu : dictGet? user "hotkeys" with _ | uv
    · rfl
    · rcases uv with usv | uo <;> rfl
  refine List.cons_eq_cons.mpr ⟨congrArg _ ?_, ?_⟩
  · rw [hsec 2 (by omega)]
    simp only [sectionName]
    rcases hu : dictGet? user "speech_recognition" with _ | uv
    · rfl
    · rcases uv with usv | uo <;> rfl
  refine List.cons_eq_cons.mpr ⟨congrArg _ ?_, ?_⟩
  · rw [hsec 3 (by omega)]
    simp only [sectionName]
    rcases hu : dictGet? user "ui" with _ | uv
    · rfl
    · rcases uv with usv | uo <;> rfl
  refine List.cons_eq_cons.mpr ⟨congrArg _ ?_, rfl⟩
  rw [hsec 4 (by omega)]
  simp only [sectionName]
  rcases hu : dictGet? user "advanced" with _ | uv
  · rfl
  · rcases uv with usv | uo <;> rfl

/-- Witness for C10: loading a document that overrides `general.theme`
and drops every other key leaves the compiled-in defaults with the user's
theme inside the shared `general` section. -/
theorem c10_shallow_copy_mutates_defaults_witness :
    docWF (.obj [("general", JValue.obj
      [("theme", JValue.prim (.s "dark"))])]) = true ∧
    (defaults_after_load
        [("general", JValue.obj [("theme", JValue.prim (.s "dark"))])] =
      .obj (DEFAULT_SETTINGS.map (fun sd =>
        (sd.1, match dictGet?
            [("general", JValue.obj [("theme", JValue.prim (.s "dark"))])]
            sd.1, sd.2 with
          | some (.obj uo), .obj so => JValue.obj (_update_nested_dict so uo)
          | _, _ => sd.2))) ∧
     defaults_after_load
         [("general", JValue.obj [("theme", JValue.prim (.s "dark"))])] ≠
       .obj DEFAULT_SETTINGS) :=
  ⟨by decide, c10_shallow_copy_mutates_defaults
    [("general", JValue.obj [("theme", JValue.prim (.s "dark"))])]
    (by decide)⟩

end UVTT
